import Mathlib

/-!
# go-rsyslog-pstats: the per-line pipeline of `main.go`

A shallow embedding of `sanitizeKey`, `findNums` and `parseMsg`.

Modelling conventions.

* A Go `string` reaches `sanitizeKey` only through `for _, r := range s`, which
  yields a sequence of runes; every rune that `range` yields is a Unicode scalar
  value (an invalid byte yields U+FFFD).  A Go string is therefore given by the
  rune sequence it yields, a Lean `String`.
* A `byte` is a `Nat` below 256; the conversion `byte(r)` is `r % 256`.
* The package-level buffer `b` is passed explicitly: `sanitizeKey` takes the
  buffer it finds and returns the buffer it leaves.
* An index expression out of range is a run-time panic; nothing in the program
  recovers from a panic, so a panic ends the run.  Functions that can panic
  return `Except GoPanic _`.
-/

namespace RsyslogPstats

/-- A run-time panic of the Go program. -/
inductive GoPanic where
  | indexOutOfRange
  deriving DecidableEq, Repr

deriving instance DecidableEq for Except

def CHAR_UNDERSCORE : Nat := 95
def CHAR_UPPER_A : Nat := 65
def CHAR_UPPER_Z : Nat := 90
def CHAR_LOWER_A : Nat := 97
def CHAR_LOWER_Z : Nat := 122
def CHAR_0 : Nat := 48
def CHAR_9 : Nat := 57
def CASE_DELTA : Nat := 32

/-- The size of the key name buffer: `var b = make([]byte, 255)`. -/
def bufferSize : Nat := 255

/-- The buffer as `make([]byte, 255)` leaves it. -/
def initialBuffer : List Nat := List.replicate bufferSize 0

/-- The local variables of the loop of `sanitizeKey`, together with the buffer. -/
structure ScanState where
  b : List Nat
  pos : Nat
  last : Nat
  deriving DecidableEq, Repr

/-- The test `c < CHAR_0 || (c > CHAR_9 && c < CHAR_UPPER_A) ||
(c > CHAR_UPPER_Z && c < CHAR_LOWER_A) || c > CHAR_LOWER_Z` of `sanitizeKey`. -/
def notAlphaNumeric (c : Nat) : Bool :=
  decide (c < CHAR_0) || (decide (c > CHAR_9) && decide (c < CHAR_UPPER_A)) ||
    (decide (c > CHAR_UPPER_Z) && decide (c < CHAR_LOWER_A)) || decide (c > CHAR_LOWER_Z)

/-- One iteration of the loop `for _, r := range s` of `sanitizeKey`. -/
def scanStep (st : ScanState) (r : Char) : Except GoPanic ScanState :=
  let c := r.toNat % 256
  if notAlphaNumeric c && decide (st.last = CHAR_UNDERSCORE) then
    .ok st
  else
    let c := if notAlphaNumeric c then CHAR_UNDERSCORE else c
    let c := if c ≥ CHAR_UPPER_A ∧ c ≤ CHAR_UPPER_Z then (c + CASE_DELTA) % 256 else c
    if st.pos < st.b.length then
      .ok { b := st.b.set st.pos c, pos := st.pos + 1, last := c }
    else
      .error .indexOutOfRange

/-- The loop of `sanitizeKey` over the runes of the string. -/
def scan : ScanState → List Char → Except GoPanic ScanState
  | st, [] => .ok st
  | st, r :: rs =>
    match scanStep st r with
    | .ok st1 => scan st1 rs
    | .error e => .error e

/-- The conversion `string(b[:pos])`.  A byte below 128 is the character of that
code; no other byte is ever converted, since every byte of a key is a letter,
a digit or the underscore. -/
def bytesToString (bs : List Nat) : String :=
  String.mk (bs.map Char.ofNat)

/-- The function `sanitizeKey` of `main.go`: the buffer found, the string; the
result is the key and the buffer left, or a panic. -/
def sanitizeKey (b : List Nat) (s : String) : Except GoPanic (String × List Nat) :=
  match scan { b := b, pos := 0, last := CHAR_UNDERSCORE } s.data with
  | .error e => .error e
  | .ok st =>
    if st.pos = 0 then
      .error .indexOutOfRange
    else
      match st.b.get? (st.pos - 1) with
      | none => .error .indexOutOfRange
      | some x =>
        let pos := if x = CHAR_UNDERSCORE then st.pos - 1 else st.pos
        .ok (bytesToString (st.b.take pos), st.b)

/-- The byte that one iteration stores for the byte `c` when it stores one: the
two assignments to `c` in the loop body of `sanitizeKey`. -/
def storedByte (c : Nat) : Nat :=
  let c := if notAlphaNumeric c then CHAR_UNDERSCORE else c
  if c ≥ CHAR_UPPER_A ∧ c ≤ CHAR_UPPER_Z then (c + CASE_DELTA) % 256 else c

/-- The bytes that the loop of `sanitizeKey` stores, in order, when it starts
with the given value of `last`: the loop without the buffer. -/
def scanBytes (last : Nat) : List Char → List Nat
  | [] => []
  | r :: rs =>
    if notAlphaNumeric (r.toNat % 256) && decide (last = CHAR_UNDERSCORE) then
      scanBytes last rs
    else
      storedByte (r.toNat % 256) :: scanBytes (storedByte (r.toNat % 256)) rs

/-- The step after the loop: `if b[pos-1] == CHAR_UNDERSCORE { pos-- }`, on the
bytes stored. -/
def dropTrailing (out : List Nat) : List Nat :=
  if out.getLast? = some CHAR_UNDERSCORE then out.dropLast else out

/-- A byte of a sanitized key: a lower-case letter, a digit or the underscore. -/
def isKeyByte (x : Nat) : Bool :=
  (decide (CHAR_LOWER_A ≤ x) && decide (x ≤ CHAR_LOWER_Z)) ||
    (decide (CHAR_0 ≤ x) && decide (x ≤ CHAR_9)) || decide (x = CHAR_UNDERSCORE)

/-- Two neighbours that are not both underscores. -/
def NotBothUnderscore (x y : Nat) : Prop := ¬ (x = CHAR_UNDERSCORE ∧ y = CHAR_UNDERSCORE)

/-- The shape of the bytes of a key: key bytes only, no underscore at the start,
no two underscores in a row, not empty, no underscore at the end. -/
structure CleanKey (ks : List Nat) : Prop where
  keyBytes : ∀ x ∈ ks, isKeyByte x = true
  chain : List.Chain NotBothUnderscore CHAR_UNDERSCORE ks
  ne_nil : ks ≠ []
  last : ks.getLast? ≠ some CHAR_UNDERSCORE

/-- The key that `sanitizeKey` returns for `s` on a buffer of 255 bytes, when it
returns (`sanitizedKey_of_ok` shows that the content of the buffer does not
matter). -/
def sanitizedKey (s : String) : Option String :=
  match sanitizeKey initialBuffer s with
  | .ok (t, _) => some t
  | .error _ => none

/-! ## Decoded records -/

/-- A finite `float64`, the value `mant * 2 ^ exp`.  `json.Unmarshal` rejects a
number outside the range of `float64`, so a decoded number is finite. -/
structure Float64 where
  mant : Int
  exp : Int
  deriving DecidableEq, Repr

/-- The value with its fractional part discarded. -/
def Float64.trunc (v : Float64) : Int :=
  if 0 ≤ v.exp then v.mant * 2 ^ v.exp.toNat else Int.tdiv v.mant (2 ^ (-v.exp).toNat)

/-- The conversion `int(vf)` to the 64-bit `int`.  Outside the range of `int`
the Go specification leaves the result to the implementation; the value here is
the one of amd64, the smallest `int`. -/
def floatToInt (v : Float64) : Int :=
  if -2 ^ 63 ≤ v.trunc ∧ v.trunc < 2 ^ 63 then v.trunc else -2 ^ 63

/-- A value of type `interface{}` as `json.Unmarshal` stores it: `nil`, `bool`,
`float64`, `string`, `[]interface{}` or `map[string]interface{}`.  A map is given
as its entries in the order in which `range` visits them. -/
inductive JValue where
  | null
  | bool (v : Bool)
  | number (v : Float64)
  | string (v : String)
  | array (v : List JValue)
  | object (v : List (String × JValue))

/-- The type `map[string]interface{}`: the entries in the order of iteration.
The keys of a Go map are distinct; `List.lookup` is the index expression. -/
abbrev JsonMap : Type := List (String × JValue)

/-- The library function `json.Unmarshal` into a `map[string]interface{}`, a
parameter of the model: the map decoded, or the error. -/
abbrev Unmarshal : Type := List Nat → Except String JsonMap

/-! ## Output and diagnostics -/

/-- The second operand of a call of `el.Println`. -/
inductive LogOperand where
  | error (err : String)
  | message (msg : List Nat)
  deriving DecidableEq, Repr

/-- One call of `el.Println`: the text and the operand printed after it. -/
structure LogEntry where
  text : String
  operand : LogOperand
  deriving DecidableEq, Repr

/-- The `io.Writer`, a parameter of the model: the error, if any, that `Write`
returns for a line, given the lines written before it. -/
abbrev Writer : Type := List String → String → Option String

/-- What the program has done so far: the key name buffer `b`, the lines passed
to the writer `out` and the diagnostics printed through `el`, both in order. -/
structure World where
  b : List Nat
  out : List String
  log : List LogEntry
  deriving DecidableEq, Repr

/-- The world at start-up. -/
def initialWorld : World := { b := initialBuffer, out := [], log := [] }

/-- A call `el.Println(text, operand)`. -/
def World.println (st : World) (text : String) (operand : LogOperand) : World :=
  { st with log := st.log ++ [{ text := text, operand := operand }] }

/-! ## Formatting -/

/-- An operand of `fmt.Fprintf`: a `string` or an `int`. -/
inductive FmtArg where
  | str (s : String)
  | int (i : Int)

/-- One verb of package `fmt` applied to an operand: `%v` prints a string as it
is and an integer in base 10, `%d` prints an integer in base 10; another pairing
prints the note `%!verb(type=value)`. -/
def formatVerb (verb : Char) (a : FmtArg) : List Char :=
  match a with
  | .str s =>
    if verb = 'v' then s.data
    else "%!".data ++ [verb] ++ "(string=".data ++ s.data ++ ")".data
  | .int i =>
    if verb = 'v' ∨ verb = 'd' then (toString i).data
    else "%!".data ++ [verb] ++ "(int=".data ++ (toString i).data ++ ")".data

/-- The formatting of package `fmt` for the format strings of `findNums`: a
character other than `%` is copied, `%` and the verb after it consume the next
operand.  Operands left over are dropped (the program passes one per verb). -/
def sprintfChars : List Char → List FmtArg → List Char
  | [], _ => []
  | [c], _ => if c = '%' then "%!(NOVERB)".data else [c]
  | c :: v :: rest, args =>
    if c = '%' then
      match args with
      | [] => "%!".data ++ [v] ++ "(MISSING)".data ++ sprintfChars rest []
      | a :: args1 => formatVerb v a ++ sprintfChars rest args1
    else c :: sprintfChars (v :: rest) args

/-- The text that `fmt.Fprintf(out, format, args...)` passes to `out`. -/
def sprintf (format : String) (args : List FmtArg) : String :=
  String.mk (sprintfChars format.data args)

/-- A call `fmt.Fprintf(out, ...)` of `findNums` with the line formatted,
followed by `if err != nil { el.Println("Error while writing", err) }`. -/
def writeLine (w : Writer) (line : String) (st : World) : World :=
  match w st.out line with
  | none => { st with out := st.out ++ [line] }
  | some err =>
    { st with out := st.out ++ [line] }.println "Error while writing" (.error err)

/-! ## The extractor and the classifier -/

/-- The function `findNums` of `main.go`; `pfx` is its parameter `prefix`. -/
def findNums (w : Writer) (pfx tag : String) : JsonMap → World → Except GoPanic World
  | [], st => .ok st
  | (k, v) :: kvs, st =>
    match v with
    | .number vf =>
      match sanitizeKey st.b k with
      | .error e => .error e
      | .ok (key, b1) =>
        let line :=
          if tag = "" then
            sprintf "rsyslog.%v.%v:%d|g\n" [.str pfx, .str key, .int (floatToInt vf)]
          else
            sprintf "rsyslog.%v,tag1=%v,tag2=%v:%d|g\n"
              [.str pfx, .str tag, .str key, .int (floatToInt vf)]
        findNums w pfx tag kvs (writeLine w line { st with b := b1 })
    | _ => findNums w pfx tag kvs st

/-- The library call `bytes.Index(msg, sep)` for a separator of one byte `c`: the
index of the first `c` in `msg`, or `-1`. -/
def bytesIndex : List Nat → Nat → Int
  | [], _ => -1
  | x :: xs, c =>
    if x = c then 0
    else if bytesIndex xs c < 0 then -1 else bytesIndex xs c + 1

/-- The byte of the opening brace. -/
def CHAR_OPEN_BRACE : Nat := 123

/-- The function `parseMsg` of `main.go`. -/
def parseMsg (unmarshal : Unmarshal) (w : Writer) (msg : List Nat) (st : World) :
    Except GoPanic World :=
  let jsonStart := bytesIndex msg CHAR_OPEN_BRACE
  if jsonStart < 0 then
    .ok st
  else
    match unmarshal (msg.drop jsonStart.toNat) with
    | .error err => .ok (st.println "Error while decoding json line" (.error err))
    | .ok values =>
      match values.lookup "origin" with
      | none => .ok (st.println "No origin key in the json blob" (.message msg))
      | some (.string origin) =>
        if origin = "dynstats" then
          match values.lookup "values" with
          | some (.object vals) => findNums w "dynstats" "" vals st
          | _ => .ok st
        else if origin = "impstats" then
          findNums w "resource_usage" "" values st
        else
          match values.lookup "name" with
          | some (.string name) =>
            match sanitizeKey st.b name with
            | .error e => .error e
            | .ok (tag, b1) =>
              match sanitizeKey b1 origin with
              | .error e => .error e
              | .ok (name1, b2) => findNums w name1 tag values { st with b := b2 }
          | _ => .ok (st.println "No name key in the json blob" (.message msg))
      | some _ => .ok (st.println "No origin key in the json blob" (.message msg))

/-! ## Words of the specification -/

/-- The tagless form of a metric line, `rsyslog.<prefix>.<key>:<value>|g` and a
newline. -/
def taglessLine (pfx key : String) (value : Int) : String :=
  "rsyslog." ++ pfx ++ "." ++ key ++ ":" ++ toString value ++ "|g\n"

/-- The tagged form of a metric line,
`rsyslog.<prefix>,tag1=<tag>,tag2=<key>:<value>|g` and a newline. -/
def taggedLine (pfx tag key : String) (value : Int) : String :=
  "rsyslog." ++ pfx ++ ",tag1=" ++ tag ++ ",tag2=" ++ key ++ ":" ++ toString value ++ "|g\n"

/-- The entries of a map whose value is a number, in the order of the map. -/
def numericEntries : JsonMap → List (String × Float64)
  | [] => []
  | (k, v) :: kvs =>
    match v with
    | .number f => (k, f) :: numericEntries kvs
    | _ => numericEntries kvs

/-- The metric line of a numeric entry: tagless when the tag is empty, tagged
otherwise, with the key sanitized and the value converted to `int`. -/
def metricLine (pfx tag : String) (e : String × Float64) : Option String :=
  (sanitizedKey e.1).map fun key =>
    if tag = "" then taglessLine pfx key (floatToInt e.2)
    else taggedLine pfx tag key (floatToInt e.2)

/-- The metric lines of the numeric entries of a map, in the order of the map. -/
def metricLines (pfx tag : String) (kvs : JsonMap) : List String :=
  (numericEntries kvs).filterMap (metricLine pfx tag)

/-- The bytes of a text of ASCII characters. -/
def asciiBytes (s : String) : List Nat := s.data.map Char.toNat

/-- A `json.Unmarshal` that decodes the given text to the given map and rejects
every other input. -/
def decoderOf (text : String) (values : JsonMap) : Unmarshal :=
  fun bs => if bs = asciiBytes text then .ok values else .error "invalid character"

/-- A writer whose `Write` never fails. -/
def reliableWriter : Writer := fun _ _ => none

/-- A map with two numeric entries among entries of every other kind. -/
def mixedMap : JsonMap :=
  [("count", .number ⟨5, 0⟩), ("name", .string "x"), ("ok", .bool true), ("nil", .null),
   ("sub", .object [("n", .number ⟨1, 0⟩)]), ("arr", .array [.number ⟨2, 0⟩]),
   ("Rate.Max", .number ⟨-37, -1⟩)]

/-! ## The text of a diagnostic -/

/-- The bytes of a character in a Go string: its UTF-8 encoding. -/
def utf8Encode (c : Char) : List Nat :=
  let n := c.toNat
  if n < 128 then [n]
  else if n < 2048 then [192 + n / 64, 128 + n % 64]
  else if n < 65536 then [224 + n / 4096, 128 + n / 64 % 64, 128 + n % 64]
  else [240 + n / 262144, 128 + n / 4096 % 64, 128 + n / 64 % 64, 128 + n % 64]

/-- The bytes of a Go string. -/
def stringBytes (s : String) : List Nat := (s.data.map utf8Encode).flatten

/-- The bytes that `el.Println(text, operand)` prints: the operands separated by
a space, then a newline (`el` has no prefix and no flags). -/
def LogEntry.render (e : LogEntry) : List Nat :=
  stringBytes e.text ++ [32] ++
    (match e.operand with
      | .error err => stringBytes err
      | .message msg => msg) ++ [10]

/-! ## The value of a number -/

/-- The rational number that a finite `float64` denotes. -/
def Float64.toRat (v : Float64) : ℚ := v.mant * (2 : ℚ) ^ v.exp

/-- A rational number rounded toward zero: the floor of a number that is not
negative, the ceiling of a negative one. -/
def roundTowardZero (q : ℚ) : Int := if 0 ≤ q then ⌊q⌋ else ⌈q⌉

/-! ## Two runs that differ in the buffer only -/

/-- Two worlds with the same lines written and the same diagnostics, whose
buffers have 255 bytes each and may differ in content. -/
def SameButBuffer (st1 st2 : World) : Prop :=
  st1.out = st2.out ∧ st1.log = st2.log ∧
    st1.b.length = bufferSize ∧ st2.b.length = bufferSize

/-- Two outcomes that agree: both return, in worlds that differ in the content of
the buffer only, or both end in the same panic. -/
def SameOutcome (r1 r2 : Except GoPanic World) : Prop :=
  (∃ a b, r1 = .ok a ∧ r2 = .ok b ∧ SameButBuffer a b) ∨ (∃ e, r1 = .error e ∧ r2 = .error e)

/-- What can be seen of a world from outside: the lines written and the
diagnostics. -/
def World.observable (st : World) : List String × List LogEntry := (st.out, st.log)

/-! ## The sanitizer in the words of the specification -/

/-- An alphanumeric character: one whose code point modulo 256 is an ASCII
letter or digit. -/
def isAlphaNumericChar (r : Char) : Bool := !notAlphaNumeric (r.toNat % 256)

/-- The number of maximal runs of disallowed characters that follow an
alphanumeric character: the number of places where a disallowed character comes
right after an alphanumeric one. -/
def disallowedRunsAfterAlphaNumeric : List Char → Nat
  | [] => 0
  | a :: rest =>
    (match rest with
      | [] => 0
      | c :: _ => if isAlphaNumericChar a && !isAlphaNumericChar c then 1 else 0) +
      disallowedRunsAfterAlphaNumeric rest

/-- The number `n` of bytes that the scan emits, as the specification counts
them: one per alphanumeric character and one per maximal run of disallowed
characters that follows an alphanumeric character. -/
def emittedCount (s : String) : Nat :=
  (s.data.filter isAlphaNumericChar).length + disallowedRunsAfterAlphaNumeric s.data

/-- A byte with an ASCII upper-case letter folded to lower case. -/
def asciiLower (c : Nat) : Nat :=
  if CHAR_UPPER_A ≤ c ∧ c ≤ CHAR_UPPER_Z then c + CASE_DELTA else c

/-- The maximal runs of alphanumeric characters of a string, in order, each
character given by its code point modulo 256: the string split at the disallowed
characters, without the empty pieces. -/
def alphaNumericRuns (s : String) : List (List Nat) :=
  ((s.data.map fun r => r.toNat % 256).splitOnP notAlphaNumeric).filter fun run => run ≠ []

/-- The reference definition of the sanitizer: the maximal runs of alphanumeric
characters, lower-cased, joined by single underscores. -/
def splitJoin (s : String) : String :=
  bytesToString (List.intercalate [CHAR_UNDERSCORE]
    ((alphaNumericRuns s).map (List.map asciiLower)))

/-- The bytes that the scan stores for the pieces between disallowed characters,
when the first piece starts the string or follows a disallowed character: an
empty piece stores nothing, a piece that is not empty stores its bytes in lower
case and, when a piece follows, one underscore. -/
def joinPieces : List (List Nat) → List Nat
  | [] => []
  | h :: tl =>
    if h = [] then joinPieces tl
    else h.map asciiLower ++ (if tl = [] then [] else CHAR_UNDERSCORE :: joinPieces tl)

/-- The bytes that the scan stores for the pieces when the first piece continues
a run of alphanumeric characters. -/
def joinInRun : List (List Nat) → List Nat
  | [] => []
  | h :: tl => h.map asciiLower ++ (if tl = [] then [] else CHAR_UNDERSCORE :: joinPieces tl)
/-! ## The loop and the buffer -/

theorem scanStep_append (pre rest : List Nat) (last : Nat) (r : Char) :
    scanStep { b := pre ++ rest, pos := pre.length, last := last } r =
      if notAlphaNumeric (r.toNat % 256) && decide (last = CHAR_UNDERSCORE) then
        .ok { b := pre ++ rest, pos := pre.length, last := last }
      else if rest = [] then .error .indexOutOfRange
      else .ok { b := (pre ++ [storedByte (r.toNat % 256)]) ++ rest.tail,
                 pos := (pre ++ [storedByte (r.toNat % 256)]).length,
                 last := storedByte (r.toNat % 256) } := by
  unfold scanStep
  by_cases h : (notAlphaNumeric (r.toNat % 256) && decide (last = CHAR_UNDERSCORE)) = true
  · simp only [h, if_true]
  · simp only [h, if_false]
    cases rest with
    | nil => simp
    | cons y ys =>
      simp [storedByte]

theorem scan_append (rs : List Char) : ∀ (pre rest : List Nat) (last : Nat),
    scan { b := pre ++ rest, pos := pre.length, last := last } rs =
      if (scanBytes last rs).length ≤ rest.length then
        .ok { b := pre ++ scanBytes last rs ++ rest.drop (scanBytes last rs).length,
              pos := pre.length + (scanBytes last rs).length,
              last := (scanBytes last rs).getLastD last }
      else .error .indexOutOfRange := by
  induction rs with
  | nil => intro pre rest last; simp [scan, scanBytes]
  | cons r rs ih =>
    intro pre rest last
    rw [scan, scanStep_append]
    by_cases h : (notAlphaNumeric (r.toNat % 256) && decide (last = CHAR_UNDERSCORE)) = true
    · simp only [h, if_true, scanBytes]
      exact ih pre rest last
    · simp only [h, if_false, scanBytes]
      cases rest with
      | nil => simp
      | cons y ys =>
        simp only [if_false, List.tail_cons, reduceCtorEq]
        rw [ih]
        have e1 : (storedByte (r.toNat % 256) :: scanBytes (storedByte (r.toNat % 256)) rs).length
            = (scanBytes (storedByte (r.toNat % 256)) rs).length + 1 := rfl
        rw [e1, List.drop_succ_cons, List.getLastD_cons]
        simp [Nat.add_assoc, Nat.add_comm 1]

/-- What `sanitizeKey` does, in terms of the bytes the loop stores: it panics
when the loop stores nothing or more than the buffer holds, and otherwise returns
the stored bytes without a trailing underscore, leaving them at the start of the
buffer. -/
theorem sanitizeKey_eq (b : List Nat) (s : String) :
    sanitizeKey b s =
      if scanBytes CHAR_UNDERSCORE s.data = [] ∨
          b.length < (scanBytes CHAR_UNDERSCORE s.data).length then
        .error .indexOutOfRange
      else
        .ok (bytesToString (dropTrailing (scanBytes CHAR_UNDERSCORE s.data)),
          scanBytes CHAR_UNDERSCORE s.data ++ b.drop (scanBytes CHAR_UNDERSCORE s.data).length) := by
  have h := scan_append s.data [] b CHAR_UNDERSCORE
  simp only [List.nil_append, List.length_nil, Nat.zero_add] at h
  unfold sanitizeKey
  rw [h]
  generalize scanBytes CHAR_UNDERSCORE s.data = out
  by_cases hlen : out.length ≤ b.length
  · simp only [hlen, if_true]
    cases hout : out.getLast? with
    | none =>
      have : out = [] := List.getLast?_eq_none_iff.mp hout
      subst this
      simp
    | some x =>
      have hne : out ≠ [] := by
        intro h0; subst h0; simp at hout
      have hpos : out.length ≠ 0 := by
        intro h0; exact hne (List.length_eq_zero.mp h0)
      have hget : (out ++ List.drop out.length b).get? (out.length - 1) = some x := by
        rw [List.get?_eq_getElem?, List.getElem?_append_left (by omega)]
        rw [← hout, List.getLast?_eq_getElem?]
      simp only [hpos, if_false, hget, hne, false_or, Nat.not_lt.mpr hlen]
      by_cases hx : x = CHAR_UNDERSCORE
      · subst hx
        simp only [if_true, dropTrailing, hout]
        rw [List.take_append_of_le_length (by omega), List.dropLast_eq_take]
      · have hx2 : ¬ (some x = some CHAR_UNDERSCORE) := by
          intro h0; exact hx (Option.some.inj h0)
        simp only [hx, if_false, dropTrailing, hout, hx2]
        rw [List.take_left]
  · have : b.length < out.length := by omega
    simp [hlen, this]


/-! ## The bytes the loop stores -/

theorem notAlphaNumeric_iff (c : Nat) :
    notAlphaNumeric c = true ↔ c < 48 ∨ (57 < c ∧ c < 65) ∨ (90 < c ∧ c < 97) ∨ 122 < c := by
  simp [notAlphaNumeric, CHAR_0, CHAR_9, CHAR_UPPER_A, CHAR_UPPER_Z, CHAR_LOWER_A, CHAR_LOWER_Z,
    or_assoc]

theorem isKeyByte_iff (x : Nat) :
    isKeyByte x = true ↔ (97 ≤ x ∧ x ≤ 122) ∨ (48 ≤ x ∧ x ≤ 57) ∨ x = 95 := by
  simp [isKeyByte, CHAR_0, CHAR_9, CHAR_LOWER_A, CHAR_LOWER_Z, CHAR_UNDERSCORE, or_assoc]

theorem storedByte_of_notAlphaNumeric {c : Nat} (h : notAlphaNumeric c = true) :
    storedByte c = CHAR_UNDERSCORE := by
  simp [storedByte, h, CHAR_UNDERSCORE, CHAR_UPPER_A, CHAR_UPPER_Z]

theorem storedByte_of_alphaNumeric {c : Nat} (h : ¬ notAlphaNumeric c = true) :
    storedByte c = if 65 ≤ c ∧ c ≤ 90 then c + 32 else c := by
  have h1 := (notAlphaNumeric_iff c).not.mp h
  have h2 : notAlphaNumeric c = false := by simpa using h
  simp only [storedByte, h2, CHAR_UPPER_A, CHAR_UPPER_Z, CASE_DELTA, ge_iff_le]
  by_cases hu : 65 ≤ c ∧ c ≤ 90
  · simp only [hu, and_self, if_true, if_false, Bool.false_eq_true]
    exact Nat.mod_eq_of_lt (by omega)
  · simp only [hu, if_false, Bool.false_eq_true]

theorem storedByte_isKeyByte (c : Nat) : isKeyByte (storedByte c) = true := by
  rw [isKeyByte_iff]
  by_cases h : notAlphaNumeric c = true
  · rw [storedByte_of_notAlphaNumeric h]; simp [CHAR_UNDERSCORE]
  · rw [storedByte_of_alphaNumeric h]
    have h1 := (notAlphaNumeric_iff c).not.mp h
    split <;> omega

theorem storedByte_eq_underscore_iff (c : Nat) :
    storedByte c = CHAR_UNDERSCORE ↔ notAlphaNumeric c = true := by
  constructor
  · intro h
    by_contra hc
    rw [storedByte_of_alphaNumeric hc] at h
    have h1 := (notAlphaNumeric_iff c).not.mp hc
    simp only [CHAR_UNDERSCORE] at h
    split at h <;> omega
  · exact storedByte_of_notAlphaNumeric

theorem storedByte_of_isKeyByte {x : Nat} (h : isKeyByte x = true) : storedByte x = x := by
  rw [isKeyByte_iff] at h
  by_cases hn : notAlphaNumeric x = true
  · rw [storedByte_of_notAlphaNumeric hn]
    have := (notAlphaNumeric_iff x).mp hn
    simp only [CHAR_UNDERSCORE]; omega
  · rw [storedByte_of_alphaNumeric hn]
    have h1 := (notAlphaNumeric_iff x).not.mp hn
    split <;> omega

theorem scanBytes_isKeyByte (rs : List Char) :
    ∀ last x, x ∈ scanBytes last rs → isKeyByte x = true := by
  induction rs with
  | nil => intro last x hx; simp [scanBytes] at hx
  | cons r rs ih =>
    intro last x hx
    rw [scanBytes] at hx
    split at hx
    · exact ih _ _ hx
    · rcases List.mem_cons.mp hx with h | h
      · rw [h]; exact storedByte_isKeyByte _
      · exact ih _ _ h

theorem scanBytes_chain (rs : List Char) :
    ∀ last, List.Chain NotBothUnderscore last (scanBytes last rs) := by
  induction rs with
  | nil => intro last; simp [scanBytes]
  | cons r rs ih =>
    intro last
    rw [scanBytes]
    split
    · exact ih last
    · rename_i hc
      refine List.Chain.cons ?_ (ih _)
      rintro ⟨h1, h2⟩
      apply hc
      simp [h1, (storedByte_eq_underscore_iff _).mp h2]

/-! ## The bytes returned -/

theorem chain_last_two {R : Nat → Nat → Prop} {l : List Nat} {y z : Nat}
    (h : List.Chain' R (l ++ [y, z])) : R y z := by
  have h1 : List.Chain' R [y, z] := h.infix (List.suffix_append l [y, z]).isInfix
  simpa using h1

theorem dropTrailing_isPrefix (out : List Nat) : dropTrailing out <+: out := by
  unfold dropTrailing
  split
  · exact List.dropLast_prefix out
  · exact List.prefix_refl out

theorem dropTrailing_chain {out : List Nat}
    (h : List.Chain NotBothUnderscore CHAR_UNDERSCORE out) :
    List.Chain NotBothUnderscore CHAR_UNDERSCORE (dropTrailing out) := by
  have h1 : List.Chain' NotBothUnderscore (CHAR_UNDERSCORE :: out) := h
  have h2 : (CHAR_UNDERSCORE :: dropTrailing out) <+: (CHAR_UNDERSCORE :: out) :=
    (List.prefix_cons_inj CHAR_UNDERSCORE).mpr (dropTrailing_isPrefix out)
  exact h1.infix h2.isInfix

theorem dropTrailing_ne_nil {out : List Nat}
    (h : List.Chain NotBothUnderscore CHAR_UNDERSCORE out) (hne : out ≠ []) :
    dropTrailing out ≠ [] := by
  cases out with
  | nil => exact absurd rfl hne
  | cons x xs =>
    have hx : x ≠ CHAR_UNDERSCORE := by
      intro hx
      exact (List.chain_cons.mp h).1 ⟨rfl, hx⟩
    unfold dropTrailing
    cases xs with
    | nil =>
      have : ¬ (some x = some CHAR_UNDERSCORE) := fun h0 => hx (Option.some.inj h0)
      simp [this]
    | cons y ys =>
      split <;> simp

theorem dropTrailing_getLast {out : List Nat}
    (h : List.Chain NotBothUnderscore CHAR_UNDERSCORE out) :
    (dropTrailing out).getLast? ≠ some CHAR_UNDERSCORE := by
  unfold dropTrailing
  split
  · rename_i hl
    intro hk
    have e1 : out = out.dropLast ++ [CHAR_UNDERSCORE] :=
      (List.dropLast_append_getLast? _ hl).symm
    have e2 : out.dropLast = out.dropLast.dropLast ++ [CHAR_UNDERSCORE] :=
      (List.dropLast_append_getLast? _ hk).symm
    have h1 : List.Chain' NotBothUnderscore (CHAR_UNDERSCORE :: out) := h
    rw [e1, e2] at h1
    have h2 : List.Chain' NotBothUnderscore
        ((CHAR_UNDERSCORE :: out.dropLast.dropLast) ++ [CHAR_UNDERSCORE, CHAR_UNDERSCORE]) := by
      simpa using h1
    exact chain_last_two h2 ⟨rfl, rfl⟩
  · assumption

set_option maxRecDepth 100000 in
theorem toNat_ofNat_byte : ∀ x, x < 256 → (Char.ofNat x).toNat = x := by decide

theorem isKeyByte_lt {x : Nat} (h : isKeyByte x = true) : x < 123 := by
  rw [isKeyByte_iff] at h; omega

/-- Scanning the characters of clean key bytes stores exactly those bytes. -/
theorem scanBytes_map_ofNat (ks : List Nat) : ∀ last,
    (∀ x ∈ ks, isKeyByte x = true) → List.Chain NotBothUnderscore last ks →
    scanBytes last (ks.map Char.ofNat) = ks := by
  induction ks with
  | nil => intro last _ _; rfl
  | cons x xs ih =>
    intro last hk hc
    have hx : isKeyByte x = true := hk x (List.mem_cons_self x xs)
    have hb : (Char.ofNat x).toNat % 256 = x := by
      rw [toNat_ofNat_byte x (by have := isKeyByte_lt hx; omega)]
      exact Nat.mod_eq_of_lt (by have := isKeyByte_lt hx; omega)
    have hR := (List.chain_cons.mp hc).1
    have hskip : ¬ ((notAlphaNumeric x && decide (last = CHAR_UNDERSCORE)) = true) := by
      intro h0
      rw [Bool.and_eq_true, decide_eq_true_eq] at h0
      apply hR
      refine ⟨h0.2, ?_⟩
      rw [← storedByte_of_isKeyByte hx]
      exact storedByte_of_notAlphaNumeric h0.1
    rw [List.map_cons, scanBytes, hb, if_neg hskip, storedByte_of_isKeyByte hx]
    rw [ih x (fun y hy => hk y (List.mem_cons_of_mem x hy)) (List.chain_cons.mp hc).2]

/-- The facts about a call of `sanitizeKey` that returns. -/
theorem sanitizeKey_ok_iff (b : List Nat) (s t : String) (b' : List Nat) :
    sanitizeKey b s = .ok (t, b') ↔
      scanBytes CHAR_UNDERSCORE s.data ≠ [] ∧
      (scanBytes CHAR_UNDERSCORE s.data).length ≤ b.length ∧
      t = bytesToString (dropTrailing (scanBytes CHAR_UNDERSCORE s.data)) ∧
      b' = scanBytes CHAR_UNDERSCORE s.data ++ b.drop (scanBytes CHAR_UNDERSCORE s.data).length := by
  rw [sanitizeKey_eq]
  by_cases h : scanBytes CHAR_UNDERSCORE s.data = [] ∨
      b.length < (scanBytes CHAR_UNDERSCORE s.data).length
  · rw [if_pos h]
    constructor
    · intro h0; cases h0
    · rintro ⟨h1, h2, _, _⟩
      rcases h with h | h
      · exact absurd h h1
      · omega
  · rw [if_neg h]
    rw [not_or, Nat.not_lt] at h
    constructor
    · intro h0
      injection h0 with h0
      injection h0 with h1 h2
      exact ⟨h.1, h.2, h1.symm, h2.symm⟩
    · rintro ⟨_, _, h3, h4⟩
      rw [h3, h4]

/-! ## The key returned -/

set_option maxRecDepth 100000 in
theorem keyChar_of_isKeyByte : ∀ x, x < 123 → isKeyByte x = true →
    (('a' ≤ Char.ofNat x ∧ Char.ofNat x ≤ 'z') ∨ ('0' ≤ Char.ofNat x ∧ Char.ofNat x ≤ '9') ∨
      Char.ofNat x = '_') := by decide

theorem underscore_of_ofNat {x : Nat} (hx : x < 256) (h : Char.ofNat x = '_') :
    x = CHAR_UNDERSCORE := by
  have h1 := toNat_ofNat_byte x hx
  rw [h] at h1
  exact h1.symm

/-- A call of `sanitizeKey` that returns: the key is made of clean key bytes,
which lie at the start of the buffer left, and the buffer keeps its length. -/
theorem sanitizeKey_ok_bytes {b : List Nat} {s t : String} {b' : List Nat}
    (h : sanitizeKey b s = .ok (t, b')) :
    ∃ ks, t = bytesToString ks ∧ CleanKey ks ∧ ks <+: b' ∧ b'.length = b.length := by
  obtain ⟨hne, hlen, ht, hb'⟩ := (sanitizeKey_ok_iff b s t b').mp h
  have hchain := scanBytes_chain s.data CHAR_UNDERSCORE
  refine ⟨dropTrailing (scanBytes CHAR_UNDERSCORE s.data), ht, ?_, ?_, ?_⟩
  · exact {
      keyBytes := fun x hx =>
        scanBytes_isKeyByte s.data _ x ((dropTrailing_isPrefix _).subset hx)
      chain := dropTrailing_chain hchain
      ne_nil := dropTrailing_ne_nil hchain hne
      last := dropTrailing_getLast hchain }
  · rw [hb']
    exact (dropTrailing_isPrefix _).trans (List.prefix_append _ _)
  · rw [hb', List.length_append, List.length_drop]
    omega

/-- On the characters of clean key bytes `sanitizeKey` returns them unchanged and
leaves a buffer that starts with them as it is. -/
theorem sanitizeKey_clean {ks b : List Nat} (hk : CleanKey ks) (hp : ks <+: b) :
    sanitizeKey b (bytesToString ks) = .ok (bytesToString ks, b) := by
  rw [sanitizeKey_eq]
  have hs : scanBytes CHAR_UNDERSCORE (bytesToString ks).data = ks :=
    scanBytes_map_ofNat ks CHAR_UNDERSCORE hk.keyBytes hk.chain
  rw [hs]
  have hcond : ¬ (ks = [] ∨ b.length < ks.length) := by
    rw [not_or, Nat.not_lt]
    exact ⟨hk.ne_nil, hp.length_le⟩
  rw [if_neg hcond]
  have hd : dropTrailing ks = ks := by
    unfold dropTrailing
    rw [if_neg hk.last]
  rw [hd, List.prefix_iff_eq_append.mp hp]

/-- A key returned by `sanitizeKey` is returned unchanged by the next call, which
also leaves the buffer as it found it. -/
theorem sanitizeKey_fixed {b : List Nat} {s t : String} {b' : List Nat}
    (h : sanitizeKey b s = .ok (t, b')) : sanitizeKey b' t = .ok (t, b') := by
  obtain ⟨ks, ht, hk, hp, _⟩ := sanitizeKey_ok_bytes h
  rw [ht]
  exact sanitizeKey_clean hk hp

/-! ## The key does not depend on the content of the buffer -/

theorem sanitizedKey_eq (s : String) :
    sanitizedKey s =
      if scanBytes CHAR_UNDERSCORE s.data = [] ∨
          bufferSize < (scanBytes CHAR_UNDERSCORE s.data).length then none
      else some (bytesToString (dropTrailing (scanBytes CHAR_UNDERSCORE s.data))) := by
  unfold sanitizedKey
  rw [sanitizeKey_eq]
  have hl : initialBuffer.length = bufferSize := by simp [initialBuffer]
  rw [hl]
  by_cases hc : scanBytes CHAR_UNDERSCORE s.data = [] ∨
      bufferSize < (scanBytes CHAR_UNDERSCORE s.data).length
  · rw [if_pos hc, if_pos hc]
  · rw [if_neg hc, if_neg hc]

theorem sanitizedKey_of_ok {b : List Nat} {s t : String} {b' : List Nat}
    (hb : b.length = bufferSize) (h : sanitizeKey b s = .ok (t, b')) :
    sanitizedKey s = some t := by
  obtain ⟨hne, hlen, ht, _⟩ := (sanitizeKey_ok_iff b s t b').mp h
  rw [sanitizedKey_eq, if_neg, ht]
  rw [not_or, Nat.not_lt, ← hb]
  exact ⟨hne, hlen⟩

theorem sanitizeKey_of_sanitizedKey {b : List Nat} {s t : String}
    (hb : b.length = bufferSize) (h : sanitizedKey s = some t) :
    ∃ b', sanitizeKey b s = .ok (t, b') ∧ b'.length = bufferSize := by
  rw [sanitizedKey_eq] at h
  split at h
  · cases h
  · rename_i hc
    rw [← hb] at hc
    refine ⟨scanBytes CHAR_UNDERSCORE s.data ++
      b.drop (scanBytes CHAR_UNDERSCORE s.data).length, ?_, ?_⟩
    · rw [sanitizeKey_eq, if_neg hc]
      injection h with h
      rw [h]
    · rw [not_or, Nat.not_lt] at hc
      rw [List.length_append, List.length_drop, ← hb]
      omega

theorem sanitizeKey_of_sanitizedKey_none {b : List Nat} {s : String}
    (hb : b.length = bufferSize) (h : sanitizedKey s = none) :
    sanitizeKey b s = .error .indexOutOfRange := by
  rw [sanitizedKey_eq] at h
  split at h
  · rename_i hc
    rw [← hb] at hc
    rw [sanitizeKey_eq, if_pos hc]
  · cases h

theorem sanitizedKey_ne_empty {s t : String} (h : sanitizedKey s = some t) : t ≠ "" := by
  obtain ⟨b', hb', _⟩ := sanitizeKey_of_sanitizedKey (b := initialBuffer) (by simp [initialBuffer]) h
  obtain ⟨ks, ht, hk, _, _⟩ := sanitizeKey_ok_bytes hb'
  intro h0
  rw [ht] at h0
  have h1 : (ks.map Char.ofNat) = [] := congrArg String.data h0
  exact hk.ne_nil (List.map_eq_nil_iff.mp h1)

/-! ## The lines written -/

theorem sprintf_tagless (pfx key : String) (n : Int) :
    sprintf "rsyslog.%v.%v:%d|g\n" [.str pfx, .str key, .int n] = taglessLine pfx key n := by
  apply String.ext
  simp [sprintf, sprintfChars, formatVerb, taglessLine]

theorem sprintf_tagged (pfx tag key : String) (n : Int) :
    sprintf "rsyslog.%v,tag1=%v,tag2=%v:%d|g\n" [.str pfx, .str tag, .str key, .int n] =
      taggedLine pfx tag key n := by
  apply String.ext
  simp [sprintf, sprintfChars, formatVerb, taggedLine]

theorem writeLine_out (w : Writer) (line : String) (st : World) :
    (writeLine w line st).out = st.out ++ [line] := by
  unfold writeLine
  split <;> rfl

theorem writeLine_b (w : Writer) (line : String) (st : World) :
    (writeLine w line st).b = st.b := by
  unfold writeLine
  split <;> rfl

theorem findNums_number (w : Writer) (pfx tag k : String) (v : Float64) (kvs : JsonMap)
    (st : World) (key : String) (b1 : List Nat) (hk : sanitizeKey st.b k = .ok (key, b1)) :
    findNums w pfx tag ((k, .number v) :: kvs) st =
      findNums w pfx tag kvs
        (writeLine w (if tag = "" then taglessLine pfx key (floatToInt v)
          else taggedLine pfx tag key (floatToInt v)) { st with b := b1 }) := by
  rw [findNums]
  simp only [hk]
  rw [sprintf_tagless, sprintf_tagged]

theorem findNums_skip (w : Writer) (pfx tag k : String) (v : JValue) (kvs : JsonMap)
    (st : World) (hv : ∀ f, v ≠ .number f) :
    findNums w pfx tag ((k, v) :: kvs) st = findNums w pfx tag kvs st := by
  cases v with
  | number f => exact absurd rfl (hv f)
  | _ => rw [findNums]; exact hv

theorem numericEntries_skip (k : String) (v : JValue) (kvs : JsonMap)
    (hv : ∀ f, v ≠ .number f) :
    numericEntries ((k, v) :: kvs) = numericEntries kvs := by
  cases v with
  | number f => exact absurd rfl (hv f)
  | _ => rw [numericEntries]; exact hv

theorem numericEntries_number (k : String) (f : Float64) (kvs : JsonMap) :
    numericEntries ((k, .number f) :: kvs) = (k, f) :: numericEntries kvs := by
  rw [numericEntries]

theorem number_or_not (v : JValue) : (∃ f, v = .number f) ∨ ∀ f, v ≠ .number f := by
  cases v with
  | number f => exact Or.inl ⟨f, rfl⟩
  | _ => right; intro f h; cases h

/-- When every numeric key can be sanitized, `findNums` returns, and the lines it
has written are the metric lines of the numeric entries, in the order of the map. -/
theorem findNums_ok (w : Writer) (pfx tag : String) : ∀ (kvs : JsonMap) (st : World),
    st.b.length = bufferSize → (∀ e ∈ numericEntries kvs, sanitizedKey e.1 ≠ none) →
    ∃ st', findNums w pfx tag kvs st = .ok st' ∧
      st'.out = st.out ++ metricLines pfx tag kvs ∧ st'.b.length = bufferSize := by
  intro kvs
  induction kvs with
  | nil => intro st hb _; exact ⟨st, rfl, by simp [metricLines, numericEntries], hb⟩
  | cons kv kvs ih =>
    intro st hb hs
    obtain ⟨k, v⟩ := kv
    rcases number_or_not v with ⟨f, rfl⟩ | hv
    · rw [numericEntries_number] at hs
      have hk : sanitizedKey k ≠ none := hs (k, f) (List.mem_cons_self _ _)
      obtain ⟨key, hkey⟩ := Option.ne_none_iff_exists'.mp hk
      obtain ⟨b1, hb1, hlen1⟩ := sanitizeKey_of_sanitizedKey hb hkey
      rw [findNums_number w pfx tag k f kvs st key b1 hb1]
      obtain ⟨st', h1, h2, h3⟩ := ih
        (writeLine w (if tag = "" then taglessLine pfx key (floatToInt f)
          else taggedLine pfx tag key (floatToInt f)) { st with b := b1 })
        (by rw [writeLine_b]; exact hlen1)
        (fun e he => hs e (List.mem_cons_of_mem _ he))
      refine ⟨st', h1, ?_, h3⟩
      rw [h2, writeLine_out]
      simp [metricLines, numericEntries_number, metricLine, hkey]
    · rw [numericEntries_skip k v kvs hv] at hs
      rw [findNums_skip w pfx tag k v kvs st hv]
      obtain ⟨st', h1, h2, h3⟩ := ih st hb hs
      refine ⟨st', h1, ?_, h3⟩
      rw [h2]
      simp [metricLines, numericEntries_skip k v kvs hv]

/-- When a numeric key cannot be sanitized, `findNums` panics. -/
theorem findNums_panic (w : Writer) (pfx tag : String) : ∀ (kvs : JsonMap) (st : World),
    st.b.length = bufferSize → (∃ e ∈ numericEntries kvs, sanitizedKey e.1 = none) →
    findNums w pfx tag kvs st = .error .indexOutOfRange := by
  intro kvs
  induction kvs with
  | nil => intro st _ h; obtain ⟨e, he, _⟩ := h; simp [numericEntries] at he
  | cons kv kvs ih =>
    intro st hb hs
    obtain ⟨k, v⟩ := kv
    rcases number_or_not v with ⟨f, rfl⟩ | hv
    · cases hkey : sanitizedKey k with
      | none =>
        rw [findNums]
        simp only [sanitizeKey_of_sanitizedKey_none hb hkey]
      | some key =>
        obtain ⟨b1, hb1, hlen1⟩ := sanitizeKey_of_sanitizedKey hb hkey
        rw [findNums_number w pfx tag k f kvs st key b1 hb1]
        apply ih
        · rw [writeLine_b]; exact hlen1
        · obtain ⟨e, he, hnone⟩ := hs
          rw [numericEntries_number] at he
          rcases List.mem_cons.mp he with h | h
          · rw [h] at hnone
            rw [hkey] at hnone
            cases hnone
          · exact ⟨e, h, hnone⟩
    · rw [numericEntries_skip k v kvs hv] at hs
      rw [findNums_skip w pfx tag k v kvs st hv]
      exact ih st hb hs

theorem metricLines_length (pfx tag : String) (kvs : JsonMap)
    (hs : ∀ e ∈ numericEntries kvs, sanitizedKey e.1 ≠ none) :
    (metricLines pfx tag kvs).length = (numericEntries kvs).length := by
  unfold metricLines
  generalize numericEntries kvs = es at hs
  induction es with
  | nil => rfl
  | cons e es ih =>
    obtain ⟨key, hkey⟩ := Option.ne_none_iff_exists'.mp (hs e (List.mem_cons_self _ _))
    have : metricLine pfx tag e = some (if tag = "" then taglessLine pfx key (floatToInt e.2)
        else taggedLine pfx tag key (floatToInt e.2)) := by
      simp [metricLine, hkey]
    rw [List.filterMap_cons_some this, List.length_cons, List.length_cons,
      ih (fun e' he' => hs e' (List.mem_cons_of_mem _ he'))]

theorem numericEntries_eq_filterMap (kvs : JsonMap) :
    numericEntries kvs = kvs.filterMap fun kv =>
      match kv.2 with
      | .number f => some (kv.1, f)
      | _ => none := by
  induction kvs with
  | nil => rfl
  | cons kv kvs ih =>
    obtain ⟨k, v⟩ := kv
    cases v <;> simp [numericEntries, ih]

theorem numericEntries_perm {kvs kvs' : JsonMap} (h : kvs'.Perm kvs) :
    (numericEntries kvs').Perm (numericEntries kvs) := by
  rw [numericEntries_eq_filterMap, numericEntries_eq_filterMap]
  exact h.filterMap _

theorem mem_numericEntries (kvs : JsonMap) (k : String) (f : Float64) :
    (k, f) ∈ numericEntries kvs ↔ (k, JValue.number f) ∈ kvs := by
  induction kvs with
  | nil => simp [numericEntries]
  | cons kv kvs ih =>
    obtain ⟨k1, v⟩ := kv
    cases v <;> simp [numericEntries, ih]

theorem metricLines_forall₂ (pfx tag : String) (kvs : JsonMap)
    (hs : ∀ e ∈ numericEntries kvs, sanitizedKey e.1 ≠ none) :
    List.Forall₂ (fun e line => metricLine pfx tag e = some line)
      (numericEntries kvs) (metricLines pfx tag kvs) := by
  unfold metricLines
  generalize numericEntries kvs = es at hs
  induction es with
  | nil => exact List.Forall₂.nil
  | cons e es ih =>
    obtain ⟨key, hkey⟩ := Option.ne_none_iff_exists'.mp (hs e (List.mem_cons_self _ _))
    have h1 : metricLine pfx tag e = some (if tag = "" then taglessLine pfx key (floatToInt e.2)
        else taggedLine pfx tag key (floatToInt e.2)) := by
      simp [metricLine, hkey]
    rw [List.filterMap_cons_some h1]
    exact List.Forall₂.cons h1 (ih (fun e' he' => hs e' (List.mem_cons_of_mem _ he')))

/-! ## The classifier -/

theorem parseMsg_dynstats (unmarshal : Unmarshal) (w : Writer) (msg : List Nat) (st : World)
    (values : JsonMap)
    (hstart : ¬ bytesIndex msg CHAR_OPEN_BRACE < 0)
    (hdec : unmarshal (msg.drop (bytesIndex msg CHAR_OPEN_BRACE).toNat) = .ok values)
    (horigin : values.lookup "origin" = some (.string "dynstats")) :
    parseMsg unmarshal w msg st =
      match values.lookup "values" with
      | some (.object vals) => findNums w "dynstats" "" vals st
      | _ => .ok st := by
  unfold parseMsg
  simp only [hstart, if_false, hdec, horigin, if_true]

theorem parseMsg_impstats (unmarshal : Unmarshal) (w : Writer) (msg : List Nat) (st : World)
    (values : JsonMap)
    (hstart : ¬ bytesIndex msg CHAR_OPEN_BRACE < 0)
    (hdec : unmarshal (msg.drop (bytesIndex msg CHAR_OPEN_BRACE).toNat) = .ok values)
    (horigin : values.lookup "origin" = some (.string "impstats")) :
    parseMsg unmarshal w msg st = findNums w "resource_usage" "" values st := by
  unfold parseMsg
  have h : ¬ ("impstats" = "dynstats") := by decide
  simp only [hstart, if_false, hdec, horigin, if_true, h]

theorem parseMsg_other (unmarshal : Unmarshal) (w : Writer) (msg : List Nat) (st : World)
    (values : JsonMap) (origin name : String)
    (hstart : ¬ bytesIndex msg CHAR_OPEN_BRACE < 0)
    (hdec : unmarshal (msg.drop (bytesIndex msg CHAR_OPEN_BRACE).toNat) = .ok values)
    (horigin : values.lookup "origin" = some (.string origin))
    (hd : origin ≠ "dynstats") (hi : origin ≠ "impstats")
    (hname : values.lookup "name" = some (.string name)) :
    parseMsg unmarshal w msg st =
      match sanitizeKey st.b name with
      | .error e => .error e
      | .ok (tag, b1) =>
        match sanitizeKey b1 origin with
        | .error e => .error e
        | .ok (name1, b2) => findNums w name1 tag values { st with b := b2 } := by
  unfold parseMsg
  simp only [hstart, if_false, hdec, horigin, hd, hi, hname]

theorem mem_of_lookup {k : String} {v : JValue} :
    ∀ {kvs : JsonMap}, kvs.lookup k = some v → (k, v) ∈ kvs := by
  intro kvs
  induction kvs with
  | nil => intro h; simp [List.lookup] at h
  | cons kv kvs ih =>
    intro h
    obtain ⟨k1, v1⟩ := kv
    by_cases hk : k = k1
    · subst hk
      simp [List.lookup] at h
      rw [h]
      exact List.mem_cons_self _ _
    · have hb : (k == k1) = false := by simpa using hk
      simp only [List.lookup, hb] at h
      exact List.mem_cons_of_mem _ (ih h)

theorem value_unique {k : String} {v v' : JValue} :
    ∀ {kvs : JsonMap}, (kvs.map Prod.fst).Nodup → (k, v) ∈ kvs → (k, v') ∈ kvs → v = v' := by
  intro kvs
  induction kvs with
  | nil => intro _ h; cases h
  | cons kv kvs ih =>
    intro hn h1 h2
    rw [List.map_cons, List.nodup_cons] at hn
    rcases List.mem_cons.mp h1 with e1 | m1
    · rcases List.mem_cons.mp h2 with e2 | m2
      · rw [← e1] at e2
        exact (Prod.mk.inj e2).2.symm
      · exfalso
        apply hn.1
        have hm : (k, v').1 ∈ kvs.map Prod.fst := List.mem_map_of_mem Prod.fst m2
        rw [← e1]
        exact hm
    · rcases List.mem_cons.mp h2 with e2 | m2
      · exfalso
        apply hn.1
        have hm : (k, v).1 ∈ kvs.map Prod.fst := List.mem_map_of_mem Prod.fst m1
        rw [← e2]
        exact hm
      · exact ih hn.2 m1 m2

theorem metricLines_tagged (pfx tag : String) (kvs : JsonMap) (ht : tag ≠ "") :
    metricLines pfx tag kvs = (numericEntries kvs).filterMap fun e =>
      (sanitizedKey e.1).map fun key => taggedLine pfx tag key (floatToInt e.2) := by
  unfold metricLines
  congr 1
  funext e
  simp [metricLine, ht]

theorem metricLines_tagless (pfx : String) (kvs : JsonMap) :
    metricLines pfx "" kvs = (numericEntries kvs).filterMap fun e =>
      (sanitizedKey e.1).map fun key => taglessLine pfx key (floatToInt e.2) := by
  unfold metricLines metricLine
  simp

/-! ## Lines without a JSON object, and lines that do not decode -/

theorem bytesIndex_nonneg_or (msg : List Nat) (c : Nat) :
    bytesIndex msg c = -1 ∨ 0 ≤ bytesIndex msg c := by
  induction msg with
  | nil => left; rfl
  | cons x xs ih =>
    rw [bytesIndex]
    by_cases hx : x = c
    · right; simp [hx]
    · rw [if_neg hx]
      by_cases hn : bytesIndex xs c < 0
      · left; rw [if_pos hn]
      · right; rw [if_neg hn]; omega

theorem bytesIndex_neg_iff (msg : List Nat) (c : Nat) :
    bytesIndex msg c < 0 ↔ c ∉ msg := by
  induction msg with
  | nil => simp [bytesIndex]
  | cons x xs ih =>
    rw [bytesIndex]
    by_cases hx : x = c
    · simp [hx]
    · rw [if_neg hx]
      have hx' : ¬ c = x := fun h => hx h.symm
      by_cases hn : bytesIndex xs c < 0
      · rw [if_pos hn]
        have := ih.mp hn
        simp [hx', this]
      · rw [if_neg hn]
        have hmem : c ∈ xs := by
          by_contra h0
          exact hn (ih.mpr h0)
        constructor
        · intro h; omega
        · intro h; exact absurd (List.mem_cons_of_mem x hmem) h

/-! ## The length and the first character of a key -/

theorem scanBytes_skip_leading (pre : List Char) (rest : List Char)
    (hpre : ∀ c ∈ pre, notAlphaNumeric (c.toNat % 256) = true) :
    scanBytes CHAR_UNDERSCORE (pre ++ rest) = scanBytes CHAR_UNDERSCORE rest := by
  induction pre with
  | nil => rfl
  | cons c cs ih =>
    have hc := hpre c (List.mem_cons_self c cs)
    rw [List.cons_append, scanBytes]
    simp only [hc, Bool.true_and, decide_True, if_true]
    exact ih (fun d hd => hpre d (List.mem_cons_of_mem c hd))

theorem sanitizeKey_congr (b : List Nat) (s s' : String)
    (h : scanBytes CHAR_UNDERSCORE s.data = scanBytes CHAR_UNDERSCORE s'.data) :
    sanitizeKey b s = sanitizeKey b s' := by
  rw [sanitizeKey_eq, sanitizeKey_eq, h]

theorem cleanKey_head {ks : List Nat} (hk : CleanKey ks) :
    (ks.map Char.ofNat).head? ≠ some '_' := by
  cases ks with
  | nil => simp
  | cons x xs =>
    intro h
    have h1 : Char.ofNat x = '_' := by simpa using h
    have hx := isKeyByte_lt (hk.keyBytes x (List.mem_cons_self x xs))
    have h2 := underscore_of_ofNat (by omega) h1
    exact (List.chain_cons.mp hk.chain).1 ⟨rfl, h2⟩

/-! ## Truncation -/

theorem tdiv_eq_round (m : Int) (n : Nat) :
    Int.tdiv m (2 ^ n) = roundTowardZero ((m : ℚ) / ((2 ^ n : ℕ) : ℚ)) := by
  have hd : (0 : ℚ) < ((2 ^ n : ℕ) : ℚ) := by positivity
  have hd' : (0 : ℤ) ≤ 2 ^ n := by positivity
  unfold roundTowardZero
  by_cases hm : 0 ≤ m
  · have hq : (0 : ℚ) ≤ (m : ℚ) / ((2 ^ n : ℕ) : ℚ) := by
      apply div_nonneg _ hd.le
      exact_mod_cast hm
    rw [if_pos hq, Rat.floor_intCast_div_natCast, Int.tdiv_eq_ediv hm hd']
    norm_cast
  · have hm' : m < 0 := not_le.mp hm
    have hq : ¬ (0 : ℚ) ≤ (m : ℚ) / ((2 ^ n : ℕ) : ℚ) := by
      rw [not_le]
      apply div_neg_of_neg_of_pos _ hd
      exact_mod_cast hm'
    rw [if_neg hq]
    have e1 : (m : ℚ) / ((2 ^ n : ℕ) : ℚ) = -(((-m : ℤ) : ℚ) / ((2 ^ n : ℕ) : ℚ)) := by
      push_cast; ring
    rw [e1, Int.ceil_neg, Rat.floor_intCast_div_natCast]
    have e2 : m = -(-m) := by ring
    conv_lhs => rw [e2]
    rw [Int.neg_tdiv, Int.tdiv_eq_ediv (by omega) hd']
    norm_cast

theorem Float64.trunc_eq_round (v : Float64) : v.trunc = roundTowardZero v.toRat := by
  unfold Float64.trunc Float64.toRat
  by_cases he : 0 ≤ v.exp
  · rw [if_pos he]
    have e1 : (v.mant : ℚ) * (2 : ℚ) ^ v.exp = ((v.mant * 2 ^ v.exp.toNat : ℤ) : ℚ) := by
      conv_lhs => rw [← Int.toNat_of_nonneg he]
      rw [zpow_natCast]
      push_cast
      rfl
    rw [e1]
    unfold roundTowardZero
    split
    · rw [Int.floor_intCast]
    · rw [Int.ceil_intCast]
  · rw [if_neg he]
    have e0 : v.exp = -((-v.exp).toNat : ℤ) := by
      rw [Int.toNat_of_nonneg (by omega)]; ring
    have e1 : (v.mant : ℚ) * (2 : ℚ) ^ v.exp =
        (v.mant : ℚ) / ((2 ^ (-v.exp).toNat : ℕ) : ℚ) := by
      conv_lhs => rw [e0]
      rw [zpow_neg, zpow_natCast]
      push_cast
      rfl
    rw [e1]
    exact tdiv_eq_round v.mant (-v.exp).toNat

theorem roundTowardZero_range (q : ℚ) (h : -2 ^ 63 ≤ q ∧ q < 2 ^ 63) :
    -2 ^ 63 ≤ roundTowardZero q ∧ roundTowardZero q < 2 ^ 63 := by
  unfold roundTowardZero
  split
  · rename_i h0
    constructor
    · have : (0 : ℤ) ≤ ⌊q⌋ := Int.floor_nonneg.mpr h0
      omega
    · have h1 : (⌊q⌋ : ℚ) ≤ q := Int.floor_le q
      have h2 : ((⌊q⌋ : ℤ) : ℚ) < ((2 ^ 63 : ℤ) : ℚ) := by
        push_cast
        linarith [h.2]
      exact_mod_cast h2
  · rename_i h0
    have h0' : q < 0 := not_le.mp h0
    constructor
    · have h1 : q ≤ (⌈q⌉ : ℚ) := Int.le_ceil q
      have h2 : ((-2 ^ 63 : ℤ) : ℚ) ≤ ((⌈q⌉ : ℤ) : ℚ) := by
        push_cast
        linarith [h.1]
      exact_mod_cast h2
    · have h1 : ⌈q⌉ ≤ 0 := by
        apply Int.ceil_le.mpr
        push_cast
        exact h0'.le
      omega

/-! ## The low byte of a character, and the content of the buffer -/

theorem scanBytes_low_byte (rs : List Char) : ∀ (rs' : List Char) (last : Nat),
    rs.map (fun r => r.toNat % 256) = rs'.map (fun r => r.toNat % 256) →
    scanBytes last rs = scanBytes last rs' := by
  induction rs with
  | nil =>
    intro rs' last h
    cases rs' with
    | nil => rfl
    | cons r' rs' => simp at h
  | cons r rs ih =>
    intro rs' last h
    cases rs' with
    | nil => simp at h
    | cons r' rs' =>
      rw [List.map_cons, List.map_cons] at h
      injection h with h1 h2
      have h1' : r.toNat % 256 = r'.toNat % 256 := h1
      rw [scanBytes, scanBytes, h1']
      split
      · exact ih rs' last h2
      · rw [ih rs' _ h2]

theorem sanitizeKey_fst_eq (b1 b2 : List Nat) (s : String) (h : b1.length = b2.length) :
    (sanitizeKey b1 s).map Prod.fst = (sanitizeKey b2 s).map Prod.fst := by
  rw [sanitizeKey_eq, sanitizeKey_eq, h]
  split <;> rfl

theorem sanitizeKey_length {b : List Nat} {s t : String} {b' : List Nat}
    (h : sanitizeKey b s = .ok (t, b')) : b'.length = b.length := by
  obtain ⟨_, _, _, _, hlen⟩ := sanitizeKey_ok_bytes h
  exact hlen

theorem writeLine_log (w : Writer) (line : String) (st : World) :
    (writeLine w line st).log =
      st.log ++ (match w st.out line with
        | none => []
        | some err => [⟨"Error while writing", .error err⟩]) := by
  unfold writeLine
  split
  · rename_i h; simp [h]
  · rename_i err h; simp [h, World.println]

theorem findNums_number_error (w : Writer) (pfx tag k : String) (v : Float64) (kvs : JsonMap)
    (st : World) (e : GoPanic) (hk : sanitizeKey st.b k = .error e) :
    findNums w pfx tag ((k, .number v) :: kvs) st = .error e := by
  rw [findNums]
  simp only [hk]

theorem SameButBuffer.writeLine {st1 st2 : World} (w : Writer) (line : String)
    (b1 b2 : List Nat) (h : SameButBuffer st1 st2)
    (h1 : b1.length = bufferSize) (h2 : b2.length = bufferSize) :
    SameButBuffer (writeLine w line { st1 with b := b1 }) (writeLine w line { st2 with b := b2 }) := by
  obtain ⟨ho, hl, _, _⟩ := h
  refine ⟨?_, ?_, ?_, ?_⟩
  · rw [writeLine_out, writeLine_out]; simp [ho]
  · rw [writeLine_log, writeLine_log]; simp [ho, hl]
  · rw [writeLine_b]; exact h1
  · rw [writeLine_b]; exact h2

theorem SameButBuffer.println {st1 st2 : World} (text : String) (operand : LogOperand)
    (h : SameButBuffer st1 st2) :
    SameButBuffer (st1.println text operand) (st2.println text operand) := by
  obtain ⟨ho, hl, h1, h2⟩ := h
  exact ⟨ho, by simp [World.println, hl], h1, h2⟩

/-- The extractor does not see the content of the buffer. -/
theorem findNums_sim (w : Writer) (pfx tag : String) : ∀ (kvs : JsonMap) (st1 st2 : World),
    SameButBuffer st1 st2 →
    SameOutcome (findNums w pfx tag kvs st1) (findNums w pfx tag kvs st2) := by
  intro kvs
  induction kvs with
  | nil => intro st1 st2 h; exact Or.inl ⟨st1, st2, rfl, rfl, h⟩
  | cons kv kvs ih =>
    intro st1 st2 h
    obtain ⟨k, v⟩ := kv
    rcases number_or_not v with ⟨f, rfl⟩ | hv
    · cases hkey : sanitizedKey k with
      | none =>
        right
        exact ⟨.indexOutOfRange,
          findNums_number_error w pfx tag k f kvs st1 _
            (sanitizeKey_of_sanitizedKey_none h.2.2.1 hkey),
          findNums_number_error w pfx tag k f kvs st2 _
            (sanitizeKey_of_sanitizedKey_none h.2.2.2 hkey)⟩
      | some key =>
        obtain ⟨b1, hb1, hlen1⟩ := sanitizeKey_of_sanitizedKey h.2.2.1 hkey
        obtain ⟨b2, hb2, hlen2⟩ := sanitizeKey_of_sanitizedKey h.2.2.2 hkey
        rw [findNums_number w pfx tag k f kvs st1 key b1 hb1,
          findNums_number w pfx tag k f kvs st2 key b2 hb2]
        exact ih _ _ (SameButBuffer.writeLine w _ b1 b2 h hlen1 hlen2)
    · rw [findNums_skip w pfx tag k v kvs st1 hv, findNums_skip w pfx tag k v kvs st2 hv]
      exact ih st1 st2 h

/-- The classifier does not see the content of the buffer. -/
theorem parseMsg_sim (unmarshal : Unmarshal) (w : Writer) (msg : List Nat) (st1 st2 : World)
    (h : SameButBuffer st1 st2) :
    SameOutcome (parseMsg unmarshal w msg st1) (parseMsg unmarshal w msg st2) := by
  unfold parseMsg
  by_cases hstart : bytesIndex msg CHAR_OPEN_BRACE < 0
  · simp only [hstart, if_true]
    exact Or.inl ⟨st1, st2, rfl, rfl, h⟩
  · simp only [hstart, if_false]
    cases hdec : unmarshal (msg.drop (bytesIndex msg CHAR_OPEN_BRACE).toNat) with
    | error err => exact Or.inl ⟨_, _, rfl, rfl, h.println _ _⟩
    | ok values =>
      dsimp only
      cases horigin : values.lookup "origin" with
      | none => exact Or.inl ⟨_, _, rfl, rfl, h.println _ _⟩
      | some v =>
        cases v with
        | string origin =>
          dsimp only
          by_cases hd : origin = "dynstats"
          · simp only [hd, if_true]
            cases hvals : values.lookup "values" with
            | none => exact Or.inl ⟨st1, st2, rfl, rfl, h⟩
            | some v =>
              cases v with
              | object vals => exact findNums_sim w "dynstats" "" vals st1 st2 h
              | _ => exact Or.inl ⟨st1, st2, rfl, rfl, h⟩
          · simp only [hd, if_false]
            by_cases hi : origin = "impstats"
            · simp only [hi, if_true]
              exact findNums_sim w "resource_usage" "" values st1 st2 h
            · simp only [hi, if_false]
              cases hname : values.lookup "name" with
              | none => exact Or.inl ⟨_, _, rfl, rfl, h.println _ _⟩
              | some v =>
                cases v with
                | string name =>
                  dsimp only
                  cases htag : sanitizedKey name with
                  | none =>
                    right
                    refine ⟨.indexOutOfRange, ?_, ?_⟩
                    · simp only [sanitizeKey_of_sanitizedKey_none h.2.2.1 htag]
                    · simp only [sanitizeKey_of_sanitizedKey_none h.2.2.2 htag]
                  | some tag =>
                    obtain ⟨b1, hb1, hlen1⟩ := sanitizeKey_of_sanitizedKey h.2.2.1 htag
                    obtain ⟨b2, hb2, hlen2⟩ := sanitizeKey_of_sanitizedKey h.2.2.2 htag
                    simp only [hb1, hb2]
                    cases hpfx : sanitizedKey origin with
                    | none =>
                      right
                      refine ⟨.indexOutOfRange, ?_, ?_⟩
                      · simp only [sanitizeKey_of_sanitizedKey_none hlen1 hpfx]
                      · simp only [sanitizeKey_of_sanitizedKey_none hlen2 hpfx]
                    | some p =>
                      obtain ⟨c1, hc1, hl1⟩ := sanitizeKey_of_sanitizedKey hlen1 hpfx
                      obtain ⟨c2, hc2, hl2⟩ := sanitizeKey_of_sanitizedKey hlen2 hpfx
                      simp only [hc1, hc2]
                      exact findNums_sim w p tag values _ _ ⟨h.1, h.2.1, hl1, hl2⟩
                | _ => exact Or.inl ⟨_, _, rfl, rfl, h.println _ _⟩
        | _ => exact Or.inl ⟨_, _, rfl, rfl, h.println _ _⟩

theorem SameOutcome.observable {r1 r2 : Except GoPanic World} (h : SameOutcome r1 r2) :
    r1.map World.observable = r2.map World.observable := by
  rcases h with ⟨a, b, h1, h2, ho, hl, _, _⟩ | ⟨e, h1, h2⟩
  · rw [h1, h2]
    show Except.ok a.observable = Except.ok b.observable
    simp [World.observable, ho, hl]
  · rw [h1, h2]

/-! ## The number of bytes stored -/

theorem disallowedRuns_cons (a : Char) (rest : List Char) :
    disallowedRunsAfterAlphaNumeric (a :: rest) =
      (match rest with
        | [] => 0
        | c :: _ => if isAlphaNumericChar a && !isAlphaNumericChar c then 1 else 0) +
        disallowedRunsAfterAlphaNumeric rest := rfl

/-- One more byte is stored when the scan is inside a run of alphanumeric
characters and the next character is disallowed. -/
theorem scanBytes_length (rs : List Char) : ∀ last,
    (scanBytes last rs).length =
      (rs.filter isAlphaNumericChar).length + disallowedRunsAfterAlphaNumeric rs +
        (match rs with
          | [] => 0
          | r :: _ => if last ≠ CHAR_UNDERSCORE ∧ isAlphaNumericChar r = false then 1 else 0) := by
  induction rs with
  | nil => intro last; rfl
  | cons r rs ih =>
    intro last
    rw [scanBytes]
    by_cases hr : notAlphaNumeric (r.toNat % 256) = true
    · have ha : isAlphaNumericChar r = false := by simp [isAlphaNumericChar, hr]
      have hruns : disallowedRunsAfterAlphaNumeric (r :: rs) =
          disallowedRunsAfterAlphaNumeric rs := by
        rw [disallowedRuns_cons]
        cases rs <;> simp [ha]
      have hfilter : (r :: rs).filter isAlphaNumericChar = rs.filter isAlphaNumericChar := by
        simp [List.filter, ha]
      rw [hruns, hfilter]
      by_cases hl : last = CHAR_UNDERSCORE
      · simp only [hr, hl, decide_True, Bool.and_self, if_true]
        rw [ih CHAR_UNDERSCORE]
        cases rs <;> simp
      · simp only [hr, hl, decide_False, Bool.and_false, if_false, Bool.false_eq_true]
        rw [storedByte_of_notAlphaNumeric hr, List.length_cons, ih CHAR_UNDERSCORE]
        simp only [ha, ne_eq, hl, not_false_eq_true, and_self, if_true]
        cases rs <;> simp
    · have ha : isAlphaNumericChar r = true := by simp [isAlphaNumericChar, hr]
      have hs : storedByte (r.toNat % 256) ≠ CHAR_UNDERSCORE := fun h0 =>
        hr ((storedByte_eq_underscore_iff _).mp h0)
      have hfilter : ((r :: rs).filter isAlphaNumericChar).length =
          (rs.filter isAlphaNumericChar).length + 1 := by
        simp [List.filter, ha]
      have hcond : ¬ ((notAlphaNumeric (r.toNat % 256) && decide (last = CHAR_UNDERSCORE)) = true) := by
        simp [hr]
      rw [if_neg hcond, List.length_cons, ih, hfilter, disallowedRuns_cons]
      cases rs with
      | nil => simp [ha]; omega
      | cons c cs =>
        simp only [ha, Bool.true_and, ne_eq, hs, not_false_eq_true, true_and]
        by_cases hc : isAlphaNumericChar c = true
        · simp [hc]; omega
        · have hc' : isAlphaNumericChar c = false := by simpa using hc
          simp [hc']; omega

theorem scanBytes_length_eq_emittedCount (s : String) :
    (scanBytes CHAR_UNDERSCORE s.data).length = emittedCount s := by
  rw [scanBytes_length, emittedCount]
  cases s.data <;> simp

/-! ## Split and join -/

theorem storedByte_eq_asciiLower {c : Nat} (h : ¬ notAlphaNumeric c = true) :
    storedByte c = asciiLower c := by
  rw [storedByte_of_alphaNumeric h]
  rfl

theorem asciiLower_ne_underscore {c : Nat} (h : ¬ notAlphaNumeric c = true) :
    asciiLower c ≠ CHAR_UNDERSCORE := by
  rw [← storedByte_eq_asciiLower h]
  exact fun h0 => h ((storedByte_eq_underscore_iff c).mp h0)

theorem splitOnP_alphaNumeric (cs : List Nat) :
    ∀ p ∈ cs.splitOnP notAlphaNumeric, ∀ x ∈ p, ¬ notAlphaNumeric x = true := by
  induction cs with
  | nil => intro p hp x hx; simp [List.splitOnP_nil] at hp; subst hp; cases hx
  | cons c cs ih =>
    intro p hp x hx
    rw [List.splitOnP_cons] at hp
    by_cases hc : notAlphaNumeric c = true
    · rw [if_pos hc] at hp
      rcases List.mem_cons.mp hp with h | h
      · subst h; cases hx
      · exact ih p h x hx
    · rw [if_neg hc] at hp
      cases hs : cs.splitOnP notAlphaNumeric with
      | nil => exact absurd hs (List.splitOnP_ne_nil _ cs)
      | cons h' tl' =>
        rw [hs] at hp ih
        simp only [List.modifyHead_cons] at hp
        rcases List.mem_cons.mp hp with h | h
        · subst h
          rcases List.mem_cons.mp hx with hx1 | hx1
          · subst hx1; exact hc
          · exact ih h' (List.mem_cons_self _ _) x hx1
        · exact ih p (List.mem_cons_of_mem _ h) x hx

/-- The scan in terms of the pieces between the disallowed characters. -/
theorem scanBytes_eq_joinPieces (rs : List Char) :
    scanBytes CHAR_UNDERSCORE rs =
        joinPieces ((rs.map fun r => r.toNat % 256).splitOnP notAlphaNumeric) ∧
      ∀ a, a ≠ CHAR_UNDERSCORE →
        scanBytes a rs = joinInRun ((rs.map fun r => r.toNat % 256).splitOnP notAlphaNumeric) := by
  induction rs with
  | nil =>
    constructor
    · simp [scanBytes, List.splitOnP_nil, joinPieces]
    · intro a _
      simp [scanBytes, List.splitOnP_nil, joinInRun]
  | cons r rs ih =>
    obtain ⟨ih1, ih2⟩ := ih
    rw [List.map_cons, List.splitOnP_cons]
    by_cases hr : notAlphaNumeric (r.toNat % 256) = true
    · rw [if_pos hr]
      constructor
      · rw [scanBytes]
        simp only [hr, decide_True, Bool.and_self, if_true]
        rw [ih1]
        simp [joinPieces]
      · intro a ha
        rw [scanBytes]
        simp only [hr, ha, decide_False, Bool.and_false, if_false, Bool.false_eq_true]
        rw [storedByte_of_notAlphaNumeric hr, ih1]
        simp [joinInRun, List.splitOnP_ne_nil]
    · rw [if_neg hr]
      have hcond : ∀ a, ¬ ((notAlphaNumeric (r.toNat % 256) && decide (a = CHAR_UNDERSCORE)) = true) := by
        intro a; simp [hr]
      have hne : storedByte (r.toNat % 256) ≠ CHAR_UNDERSCORE := fun h0 =>
        hr ((storedByte_eq_underscore_iff _).mp h0)
      have hstep : ∀ a, scanBytes a (r :: rs) =
          joinInRun ((rs.map fun r => r.toNat % 256).splitOnP notAlphaNumeric |>.modifyHead
            (List.cons (r.toNat % 256))) := by
        intro a
        rw [scanBytes, if_neg (hcond a), ih2 _ hne, storedByte_eq_asciiLower hr]
        cases hs : (rs.map fun r => r.toNat % 256).splitOnP notAlphaNumeric with
        | nil => exact absurd hs (List.splitOnP_ne_nil _ _)
        | cons h' tl' => simp [joinInRun]
      constructor
      · rw [hstep]
        cases hs : (rs.map fun r => r.toNat % 256).splitOnP notAlphaNumeric with
        | nil => exact absurd hs (List.splitOnP_ne_nil _ _)
        | cons h' tl' => simp [joinInRun, joinPieces]
      · intro a _
        exact hstep a

theorem dropTrailing_append_of_ne_nil (xs ys : List Nat) (h : ys ≠ []) :
    dropTrailing (xs ++ ys) = xs ++ dropTrailing ys := by
  unfold dropTrailing
  have h1 : (xs ++ ys).getLast? = ys.getLast? := by
    cases hy : ys.getLast? with
    | none => exact absurd (List.getLast?_eq_none_iff.mp hy) h
    | some y => rw [List.getLast?_append, hy]; rfl
  rw [h1]
  split
  · rw [List.dropLast_append_of_ne_nil _ h]
  · rfl

theorem dropTrailing_lower_run {p : List Nat} (hp : ∀ x ∈ p, ¬ notAlphaNumeric x = true) :
    dropTrailing (p.map asciiLower) = p.map asciiLower := by
  unfold dropTrailing
  rw [if_neg]
  rw [List.getLast?_map]
  intro h
  cases hl : p.getLast? with
  | none => rw [hl] at h; cases h
  | some x =>
    rw [hl] at h
    have hx : x ∈ p := List.mem_of_getLast?_eq_some hl
    exact asciiLower_ne_underscore (hp x hx) (Option.some.inj h)

theorem joinPieces_eq_nil_iff (ps : List (List Nat)) :
    joinPieces ps = [] ↔ ps.filter (fun run => run ≠ []) = [] := by
  induction ps with
  | nil => simp [joinPieces]
  | cons h tl ih =>
    by_cases hh : h = []
    · simp [joinPieces, hh, ih]
    · simp [joinPieces, hh]

/-- Dropping the trailing underscore from the bytes stored for the pieces gives
the pieces that are not empty, in lower case, joined by single underscores. -/
theorem dropTrailing_joinPieces (ps : List (List Nat))
    (hps : ∀ p ∈ ps, ∀ x ∈ p, ¬ notAlphaNumeric x = true) :
    dropTrailing (joinPieces ps) =
      List.intercalate [CHAR_UNDERSCORE]
        ((ps.filter fun run => run ≠ []).map (List.map asciiLower)) := by
  induction ps with
  | nil => simp [joinPieces, dropTrailing, List.intercalate]
  | cons h tl ih =>
    have ih' := ih (fun p hp => hps p (List.mem_cons_of_mem _ hp))
    by_cases hh : h = []
    · simp only [joinPieces, hh, if_true]
      rw [ih']
      simp
    · have hfilter : ((h :: tl).filter fun run => run ≠ []) =
          h :: tl.filter fun run => run ≠ [] := by
        simp [List.filter, hh]
      have hrun := dropTrailing_lower_run (hps h (List.mem_cons_self _ _))
      rw [hfilter, List.map_cons]
      simp only [joinPieces, hh, if_false]
      by_cases htl : tl = []
      · subst htl
        simp [hrun, List.intercalate]
      · rw [if_neg htl]
        by_cases hj : joinPieces tl = []
        · have hf := (joinPieces_eq_nil_iff tl).mp hj
          rw [hj, hf]
          have e1 : dropTrailing (h.map asciiLower ++ [CHAR_UNDERSCORE]) = h.map asciiLower := by
            unfold dropTrailing
            simp
          rw [e1]
          simp [List.intercalate]
        · have hf : (tl.filter fun run => run ≠ []) ≠ [] := fun h0 =>
            hj ((joinPieces_eq_nil_iff tl).mpr h0)
          rw [dropTrailing_append_of_ne_nil _ _ (List.cons_ne_nil _ _)]
          have e2 : dropTrailing (CHAR_UNDERSCORE :: joinPieces tl) =
              CHAR_UNDERSCORE :: dropTrailing (joinPieces tl) :=
            dropTrailing_append_of_ne_nil [CHAR_UNDERSCORE] (joinPieces tl) hj
          rw [e2, ih']
          cases hq : (tl.filter fun run => run ≠ []) with
          | nil => exact absurd hq hf
          | cons q qs => simp [List.intercalate, List.intersperse]

/-! ## The sanitizer -/

/-- C1. Charset invariant: when `sanitizeKey` returns, every character of the key
is a lower-case ASCII letter, a digit or the underscore, whatever the input
string and the buffer. -/
theorem sanitizeKey_charset (b : List Nat) (s t : String) (b' : List Nat)
    (h : sanitizeKey b s = .ok (t, b')) :
    ∀ c ∈ t.data, ('a' ≤ c ∧ c ≤ 'z') ∨ ('0' ≤ c ∧ c ≤ '9') ∨ c = '_' := by
  obtain ⟨ks, ht, hk, _, _⟩ := sanitizeKey_ok_bytes h
  intro c hc
  rw [ht] at hc
  obtain ⟨x, hx, rfl⟩ := List.mem_map.mp hc
  exact keyChar_of_isKeyByte x (isKeyByte_lt (hk.keyBytes x hx)) (hk.keyBytes x hx)

set_option maxRecDepth 100000 in
/-- C1 at the input `"Input Rate, Ł!"`, with upper case, punctuation and a
character outside ASCII. -/
theorem sanitizeKey_charset_witness :
    sanitizeKey initialBuffer "Input Rate, Ł!" =
        .ok ("input_rate_a", asciiBytes "input_rate_a_" ++ List.replicate 242 0) ∧
      ∀ c ∈ "input_rate_a".data, ('a' ≤ c ∧ c ≤ 'z') ∨ ('0' ≤ c ∧ c ≤ '9') ∨ c = '_' :=
  ⟨by decide, sanitizeKey_charset initialBuffer "Input Rate, Ł!" "input_rate_a"
    (asciiBytes "input_rate_a_" ++ List.replicate 242 0) (by decide)⟩

/-- C2. No double underscore: when `sanitizeKey` returns, the key does not
contain two underscores in a row. -/
theorem sanitizeKey_no_double_underscore (b : List Nat) (s t : String) (b' : List Nat)
    (h : sanitizeKey b s = .ok (t, b')) :
    ¬ (['_', '_'] <:+: t.data) := by
  obtain ⟨ks, ht, hk, _, _⟩ := sanitizeKey_ok_bytes h
  intro hin
  have h1 : List.Chain' NotBothUnderscore ks := (List.Chain'.tail (l := CHAR_UNDERSCORE :: ks) hk.chain)
  have h2 : List.Chain' (fun c d : Char => ¬ (c = '_' ∧ d = '_')) (ks.map Char.ofNat) := by
    refine List.chain'_map_of_chain' Char.ofNat ?_ (List.Chain'.iff_mem.mp h1)
    rintro x y ⟨hx, hy, hxy⟩ ⟨hcx, hcy⟩
    have hx1 := isKeyByte_lt (hk.keyBytes x hx)
    have hy1 := isKeyByte_lt (hk.keyBytes y hy)
    exact hxy ⟨underscore_of_ofNat (by omega) hcx, underscore_of_ofNat (by omega) hcy⟩
  rw [ht] at hin
  have h3 := List.chain'_pair.mp ( List.Chain'.infix h2 hin)
  exact h3 ⟨rfl, rfl⟩

set_option maxRecDepth 100000 in
/-- C2 at the input `"a_-_.__b"`, with a run of six disallowed characters. -/
theorem sanitizeKey_no_double_underscore_witness :
    sanitizeKey initialBuffer "a_-_.__b" =
        .ok ("a_b", asciiBytes "a_b" ++ List.replicate 252 0) ∧
      ¬ (['_', '_'] <:+: "a_b".data) :=
  ⟨by decide, sanitizeKey_no_double_underscore initialBuffer "a_-_.__b" "a_b"
    (asciiBytes "a_b" ++ List.replicate 252 0) (by decide)⟩

/-- C3. No trailing underscore: when `sanitizeKey` returns, the key is not empty
and its last character is not the underscore; dropping one underscore after the
loop is enough. -/
theorem sanitizeKey_no_trailing_underscore (b : List Nat) (s t : String) (b' : List Nat)
    (h : sanitizeKey b s = .ok (t, b')) :
    t ≠ "" ∧ t.data.getLast? ≠ some '_' := by
  obtain ⟨ks, ht, hk, _, _⟩ := sanitizeKey_ok_bytes h
  constructor
  · intro h0
    rw [ht] at h0
    have h1 : (ks.map Char.ofNat) = [] := congrArg String.data h0
    exact hk.ne_nil (List.map_eq_nil_iff.mp h1)
  · intro h0
    rw [ht] at h0
    have h1 : (ks.map Char.ofNat).getLast? = some '_' := h0
    rw [List.getLast?_map] at h1
    cases hl : ks.getLast? with
    | none => rw [hl] at h1; cases h1
    | some x =>
      rw [hl] at h1
      have hx : x ∈ ks := List.mem_of_getLast?_eq_some hl
      have hx1 := isKeyByte_lt (hk.keyBytes x hx)
      have h2 : Char.ofNat x = '_' := Option.some.inj h1
      have h3 := underscore_of_ofNat (by omega) h2
      exact hk.last (by rw [hl, h3])

set_option maxRecDepth 100000 in
/-- C3 at the input `"foo.bar..."`, which ends in a run of disallowed
characters. -/
theorem sanitizeKey_no_trailing_underscore_witness :
    sanitizeKey initialBuffer "foo.bar..." =
        .ok ("foo_bar", asciiBytes "foo_bar_" ++ List.replicate 247 0) ∧
      "foo_bar" ≠ "" ∧ "foo_bar".data.getLast? ≠ some '_' :=
  ⟨by decide, sanitizeKey_no_trailing_underscore initialBuffer "foo.bar..." "foo_bar"
    (asciiBytes "foo_bar_" ++ List.replicate 247 0) (by decide)⟩

/-- C4, the code at the failing inputs: on a string without an alphanumeric
character, the empty string among them, `sanitizeKey` returns no key: the loop
stores nothing, `pos` stays 0 and `b[pos-1]` is out of range.  For such a string
within the bound of 254 characters there is no value `sanitizeKey(s)` to sanitize
again, so the equation of the claim has no meaning there. -/
theorem sanitizeKey_panics_without_alphanumeric (b : List Nat) (s : String)
    (hs : ∀ c ∈ s.data, notAlphaNumeric (c.toNat % 256) = true) :
    sanitizeKey b s = .error .indexOutOfRange ∧
      ¬ ∃ t b', sanitizeKey b s = .ok (t, b') := by
  have h0 : scanBytes CHAR_UNDERSCORE s.data = [] := by
    have h1 := scanBytes_skip_leading s.data [] hs
    rw [List.append_nil] at h1
    rw [h1]
    rfl
  have h2 : sanitizeKey b s = .error .indexOutOfRange := by
    rw [sanitizeKey_eq, if_pos (Or.inl h0)]
  refine ⟨h2, ?_⟩
  rintro ⟨t, b', h3⟩
  rw [h2] at h3
  cases h3

set_option maxRecDepth 100000 in
/-- C4 at the empty string and at `"..."`, both within the bound of 254
characters. -/
theorem sanitizeKey_panics_without_alphanumeric_witness :
    ("".length ≤ 254 ∧ sanitizeKey initialBuffer "" = .error .indexOutOfRange) ∧
    ("...".length ≤ 254 ∧ sanitizeKey initialBuffer "..." = .error .indexOutOfRange) :=
  ⟨⟨by decide, (sanitizeKey_panics_without_alphanumeric initialBuffer "" (by decide)).1⟩,
    ⟨by decide, (sanitizeKey_panics_without_alphanumeric initialBuffer "..." (by decide)).1⟩⟩

/-! ## The extractor -/

/-- C5. Output format of `findNums`: for an entry with key `k` and numeric value
`v`, where `sanitizeKey` returns `key` for `k`, `findNums` passes one line to the
writer and goes on with the rest of the map; the line is
`rsyslog.<prefix>.<key>:<int(v)>|g` and a newline when the tag is empty, and
`rsyslog.<prefix>,tag1=<tag>,tag2=<key>:<int(v)>|g` and a newline otherwise. -/
theorem findNums_line_format (w : Writer) (pfx tag k : String) (v : Float64) (kvs : JsonMap)
    (st : World) (key : String) (b1 : List Nat) (hk : sanitizeKey st.b k = .ok (key, b1)) :
    ∃ line,
      line = (if tag = "" then
          "rsyslog." ++ pfx ++ "." ++ key ++ ":" ++ toString (floatToInt v) ++ "|g\n"
        else
          "rsyslog." ++ pfx ++ ",tag1=" ++ tag ++ ",tag2=" ++ key ++ ":" ++
            toString (floatToInt v) ++ "|g\n") ∧
      findNums w pfx tag ((k, .number v) :: kvs) st =
        findNums w pfx tag kvs (writeLine w line { st with b := b1 }) ∧
      (writeLine w line { st with b := b1 }).out = st.out ++ [line] := by
  refine ⟨_, rfl, ?_, writeLine_out _ _ _⟩
  rw [findNums_number w pfx tag k v kvs st key b1 hk]
  rfl

set_option maxRecDepth 100000 in
/-- C5 at the key `"Foo Bar"` with the value 3.7, without a tag and with the tag
`"input_rate"`. -/
theorem findNums_line_format_witness :
    (∃ line, line = "rsyslog.dynstats.foo_bar:3|g\n" ∧
      (writeLine reliableWriter line
        { initialWorld with b := asciiBytes "foo_bar" ++ List.replicate 248 0 }).out = [line]) ∧
    (findNums reliableWriter "dynstats" "" [("Foo Bar", .number ⟨4165829655317709, -50⟩)]
        initialWorld).map World.out = .ok ["rsyslog.dynstats.foo_bar:3|g\n"] ∧
    (findNums reliableWriter "imuxsock" "input_rate"
        [("Foo Bar", .number ⟨4165829655317709, -50⟩)] initialWorld).map World.out =
      .ok ["rsyslog.imuxsock,tag1=input_rate,tag2=foo_bar:3|g\n"] := by
  obtain ⟨line, h1, _, h3⟩ := findNums_line_format reliableWriter "dynstats" "" "Foo Bar"
    ⟨4165829655317709, -50⟩ [] initialWorld "foo_bar"
    (asciiBytes "foo_bar" ++ List.replicate 248 0) (by decide)
  exact ⟨⟨line, h1.trans (by decide), h3⟩, by decide, by decide⟩

/-- C6. Numeric filter: when every key of a numeric entry can be sanitized,
`findNums` returns and has written exactly the metric lines of the numeric
entries, one per numeric entry and in the order of iteration; the numeric entries
are exactly the entries whose value is a number; and for every other order of
iteration of the same map the lines written are the same as a multiset. -/
theorem findNums_numeric_filter (w : Writer) (pfx tag : String) (kvs : JsonMap) (st : World)
    (hb : st.b.length = bufferSize)
    (hs : ∀ e ∈ numericEntries kvs, sanitizedKey e.1 ≠ none) :
    (∃ st', findNums w pfx tag kvs st = .ok st' ∧
      st'.out = st.out ++ metricLines pfx tag kvs) ∧
    List.Forall₂ (fun e line => metricLine pfx tag e = some line)
      (numericEntries kvs) (metricLines pfx tag kvs) ∧
    (metricLines pfx tag kvs).length = (numericEntries kvs).length ∧
    (∀ k f, (k, f) ∈ numericEntries kvs ↔ (k, JValue.number f) ∈ kvs) ∧
    ∀ kvs' : JsonMap, kvs'.Perm kvs →
      ∃ st'', findNums w pfx tag kvs' st = .ok st'' ∧
        st''.out = st.out ++ metricLines pfx tag kvs' ∧
        (metricLines pfx tag kvs' : Multiset String) = (metricLines pfx tag kvs : Multiset String) := by
  refine ⟨?_, metricLines_forall₂ pfx tag kvs hs, metricLines_length pfx tag kvs hs,
    mem_numericEntries kvs, ?_⟩
  · obtain ⟨st', h1, h2, _⟩ := findNums_ok w pfx tag kvs st hb hs
    exact ⟨st', h1, h2⟩
  · intro kvs' hp
    have hperm := numericEntries_perm hp
    have hs' : ∀ e ∈ numericEntries kvs', sanitizedKey e.1 ≠ none :=
      fun e he => hs e (hperm.subset he)
    obtain ⟨st'', h1, h2, _⟩ := findNums_ok w pfx tag kvs' st hb hs'
    refine ⟨st'', h1, h2, ?_⟩
    exact Multiset.coe_eq_coe.mpr (hperm.filterMap _)

set_option maxRecDepth 100000 in
/-- C6 at a map with two numeric entries, a string, a boolean, a null, a nested
mapping and a sequence, in the order given and in the reverse order. -/
theorem findNums_numeric_filter_witness :
    (∃ st', findNums reliableWriter "resource_usage" "" mixedMap initialWorld = .ok st' ∧
      st'.out = ["rsyslog.resource_usage.count:5|g\n",
        "rsyslog.resource_usage.rate_max:-18|g\n"]) ∧
    (∃ st'', findNums reliableWriter "resource_usage" "" mixedMap.reverse initialWorld =
        .ok st'' ∧
      st''.out = ["rsyslog.resource_usage.rate_max:-18|g\n",
        "rsyslog.resource_usage.count:5|g\n"]) := by
  obtain ⟨⟨st', h1, h2⟩, _, _, _, h5⟩ := findNums_numeric_filter reliableWriter
    "resource_usage" "" mixedMap initialWorld (by decide) (by decide)
  obtain ⟨st'', h6, h7, _⟩ := h5 mixedMap.reverse (List.reverse_perm _)
  exact ⟨⟨st', h1, h2.trans (by decide)⟩, ⟨st'', h6, h7.trans (by decide)⟩⟩

/-! ## The classifier -/

/-- C7. Origin dispatch, default case: for a decoded record whose `origin` is a
string other than `"dynstats"` and `"impstats"` and whose `name` is a string,
with `origin`, `name` and the numeric keys sanitizable, `parseMsg` returns and
has written, for each numeric top-level entry and for nothing else, the tagged
line with the sanitized origin as prefix, the sanitized name as `tag1` and the
sanitized key as `tag2`. -/
theorem parseMsg_default_origin (unmarshal : Unmarshal) (w : Writer) (msg : List Nat)
    (st : World) (values : JsonMap) (origin name pfx tag : String)
    (hstart : ¬ bytesIndex msg CHAR_OPEN_BRACE < 0)
    (hdec : unmarshal (msg.drop (bytesIndex msg CHAR_OPEN_BRACE).toNat) = .ok values)
    (horigin : values.lookup "origin" = some (.string origin))
    (hd : origin ≠ "dynstats") (hi : origin ≠ "impstats")
    (hname : values.lookup "name" = some (.string name))
    (hb : st.b.length = bufferSize)
    (hp : sanitizedKey origin = some pfx) (ht : sanitizedKey name = some tag)
    (hs : ∀ e ∈ numericEntries values, sanitizedKey e.1 ≠ none) :
    ∃ st', parseMsg unmarshal w msg st = .ok st' ∧
      st'.out = st.out ++ (numericEntries values).filterMap (fun e =>
        (sanitizedKey e.1).map fun key => taggedLine pfx tag key (floatToInt e.2)) ∧
      ((numericEntries values).filterMap (fun e =>
        (sanitizedKey e.1).map fun key => taggedLine pfx tag key (floatToInt e.2))).length =
        (numericEntries values).length := by
  obtain ⟨b1, hb1, hlen1⟩ := sanitizeKey_of_sanitizedKey hb ht
  obtain ⟨b2, hb2, hlen2⟩ := sanitizeKey_of_sanitizedKey hlen1 hp
  rw [parseMsg_other unmarshal w msg st values origin name hstart hdec horigin hd hi hname]
  simp only [hb1, hb2]
  obtain ⟨st', h1, h2, _⟩ := findNums_ok w pfx tag values { st with b := b2 } hlen2 hs
  have htag : tag ≠ "" := sanitizedKey_ne_empty ht
  rw [← metricLines_tagged pfx tag values htag]
  exact ⟨st', h1, h2, metricLines_length pfx tag values hs⟩

set_option maxRecDepth 100000 in
/-- C7 at the record `{"origin":"imuxsock","name":"Input Rate","count":5}`. -/
theorem parseMsg_default_origin_witness :
    ∃ st', parseMsg
        (decoderOf "\x7b\"origin\":\"imuxsock\",\"name\":\"Input Rate\",\"count\":5\x7d\n"
          [("origin", .string "imuxsock"), ("name", .string "Input Rate"),
            ("count", .number ⟨5, 0⟩)])
        reliableWriter
        (asciiBytes
          "pstats: \x7b\"origin\":\"imuxsock\",\"name\":\"Input Rate\",\"count\":5\x7d\n")
        initialWorld = .ok st' ∧
      st'.out = ["rsyslog.imuxsock,tag1=input_rate,tag2=count:5|g\n"] := by
  obtain ⟨st', h1, h2, _⟩ := parseMsg_default_origin
    (decoderOf "\x7b\"origin\":\"imuxsock\",\"name\":\"Input Rate\",\"count\":5\x7d\n"
      [("origin", .string "imuxsock"), ("name", .string "Input Rate"),
        ("count", .number ⟨5, 0⟩)])
    reliableWriter
    (asciiBytes "pstats: \x7b\"origin\":\"imuxsock\",\"name\":\"Input Rate\",\"count\":5\x7d\n")
    initialWorld
    [("origin", .string "imuxsock"), ("name", .string "Input Rate"), ("count", .number ⟨5, 0⟩)]
    "imuxsock" "Input Rate" "imuxsock" "input_rate"
    (by decide) (if_pos (by decide)) rfl (by decide) (by decide) rfl (by decide) (by decide)
    (by decide) (by decide)
  exact ⟨st', h1, h2.trans (by decide)⟩

/-- C8. Origin dispatch, dynstats: for a decoded record with origin `"dynstats"`,
when the field `values` is a nested mapping `parseMsg` does exactly what
`findNums "dynstats" ""` does on that mapping, and, the numeric keys of the
mapping being sanitizable, it returns and has written one tagless line
`rsyslog.dynstats.<key>:<int(v)>|g` per numeric entry of the mapping and nothing
for the top-level record; when `values` is absent or not a mapping, `parseMsg`
returns with nothing written and nothing logged. -/
theorem parseMsg_dynstats_origin (unmarshal : Unmarshal) (w : Writer) (msg : List Nat)
    (st : World) (values : JsonMap)
    (hstart : ¬ bytesIndex msg CHAR_OPEN_BRACE < 0)
    (hdec : unmarshal (msg.drop (bytesIndex msg CHAR_OPEN_BRACE).toNat) = .ok values)
    (horigin : values.lookup "origin" = some (.string "dynstats")) :
    (∀ vals, values.lookup "values" = some (.object vals) →
      parseMsg unmarshal w msg st = findNums w "dynstats" "" vals st ∧
      (st.b.length = bufferSize → (∀ e ∈ numericEntries vals, sanitizedKey e.1 ≠ none) →
        ∃ st', parseMsg unmarshal w msg st = .ok st' ∧
          st'.out = st.out ++ (numericEntries vals).filterMap (fun e =>
            (sanitizedKey e.1).map fun key => taglessLine "dynstats" key (floatToInt e.2)) ∧
          ((numericEntries vals).filterMap (fun e =>
            (sanitizedKey e.1).map fun key =>
              taglessLine "dynstats" key (floatToInt e.2))).length =
            (numericEntries vals).length)) ∧
    ((∀ vals, values.lookup "values" ≠ some (.object vals)) →
      parseMsg unmarshal w msg st = .ok st) := by
  have hp := parseMsg_dynstats unmarshal w msg st values hstart hdec horigin
  constructor
  · intro vals hvals
    rw [hvals] at hp
    refine ⟨hp, ?_⟩
    intro hb hs
    obtain ⟨st', h1, h2, _⟩ := findNums_ok w "dynstats" "" vals st hb hs
    rw [hp, ← metricLines_tagless "dynstats" vals]
    exact ⟨st', h1, h2, metricLines_length "dynstats" "" vals hs⟩
  · intro hno
    rw [hp]
    split
    · rename_i vals hvals
      exact absurd hvals (hno vals)
    · rfl

set_option maxRecDepth 100000 in
/-- C8 at the record `{"origin":"dynstats","values":{"Foo Bar":3.7}}` and at the
record `{"origin":"dynstats","count":9}`, which has no field `values`. -/
theorem parseMsg_dynstats_origin_witness :
    (∃ st', parseMsg
        (decoderOf "\x7b\"origin\":\"dynstats\",\"values\":\x7b\"Foo Bar\":3.7\x7d\x7d\n"
          [("origin", .string "dynstats"),
            ("values", .object [("Foo Bar", .number ⟨4165829655317709, -50⟩)])])
        reliableWriter
        (asciiBytes "\x7b\"origin\":\"dynstats\",\"values\":\x7b\"Foo Bar\":3.7\x7d\x7d\n")
        initialWorld = .ok st' ∧
      st'.out = ["rsyslog.dynstats.foo_bar:3|g\n"]) ∧
    parseMsg
        (decoderOf "\x7b\"origin\":\"dynstats\",\"count\":9\x7d\n"
          [("origin", .string "dynstats"), ("count", .number ⟨9, 0⟩)])
        reliableWriter
        (asciiBytes "\x7b\"origin\":\"dynstats\",\"count\":9\x7d\n")
        initialWorld = .ok initialWorld := by
  constructor
  · obtain ⟨st', h1, h2, _⟩ := (( parseMsg_dynstats_origin
      (decoderOf "\x7b\"origin\":\"dynstats\",\"values\":\x7b\"Foo Bar\":3.7\x7d\x7d\n"
        [("origin", .string "dynstats"),
          ("values", .object [("Foo Bar", .number ⟨4165829655317709, -50⟩)])])
      reliableWriter
      (asciiBytes "\x7b\"origin\":\"dynstats\",\"values\":\x7b\"Foo Bar\":3.7\x7d\x7d\n")
      initialWorld
      [("origin", .string "dynstats"),
        ("values", .object [("Foo Bar", .number ⟨4165829655317709, -50⟩)])]
      (by decide) (if_pos (by decide)) rfl).1
        [("Foo Bar", .number ⟨4165829655317709, -50⟩)] rfl).2 (by decide) (by decide)
    exact ⟨st', h1, h2.trans (by decide)⟩
  · refine ( parseMsg_dynstats_origin
      (decoderOf "\x7b\"origin\":\"dynstats\",\"count\":9\x7d\n"
        [("origin", .string "dynstats"), ("count", .number ⟨9, 0⟩)])
      reliableWriter
      (asciiBytes "\x7b\"origin\":\"dynstats\",\"count\":9\x7d\n")
      initialWorld
      [("origin", .string "dynstats"), ("count", .number ⟨9, 0⟩)]
      (by decide) (if_pos (by decide)) rfl).2 ?_
    intro vals h
    have h1 : List.lookup "values"
        [("origin", JValue.string "dynstats"), ("count", JValue.number ⟨9, 0⟩)] = none := rfl
    rw [h1] at h
    cases h

/-- C9. Origin dispatch, impstats: for a decoded record with origin `"impstats"`
whose numeric keys are sanitizable, `parseMsg` returns and has written one
tagless line `rsyslog.resource_usage.<key>:<int(v)>|g` per numeric entry of the
whole top-level record; no field `name` is needed; and, the keys of a map being
distinct, the field `origin` is not among the numeric entries and so produces no
line. -/
theorem parseMsg_impstats_origin (unmarshal : Unmarshal) (w : Writer) (msg : List Nat)
    (st : World) (values : JsonMap)
    (hstart : ¬ bytesIndex msg CHAR_OPEN_BRACE < 0)
    (hdec : unmarshal (msg.drop (bytesIndex msg CHAR_OPEN_BRACE).toNat) = .ok values)
    (horigin : values.lookup "origin" = some (.string "impstats"))
    (hb : st.b.length = bufferSize)
    (hs : ∀ e ∈ numericEntries values, sanitizedKey e.1 ≠ none) :
    (∃ st', parseMsg unmarshal w msg st = .ok st' ∧
      st'.out = st.out ++ (numericEntries values).filterMap (fun e =>
        (sanitizedKey e.1).map fun key =>
          taglessLine "resource_usage" key (floatToInt e.2)) ∧
      ((numericEntries values).filterMap (fun e =>
        (sanitizedKey e.1).map fun key =>
          taglessLine "resource_usage" key (floatToInt e.2))).length =
        (numericEntries values).length) ∧
    ((values.map Prod.fst).Nodup → ∀ f, ("origin", f) ∉ numericEntries values) := by
  constructor
  · rw [parseMsg_impstats unmarshal w msg st values hstart hdec horigin]
    obtain ⟨st', h1, h2, _⟩ := findNums_ok w "resource_usage" "" values st hb hs
    rw [← metricLines_tagless "resource_usage" values]
    exact ⟨st', h1, h2, metricLines_length "resource_usage" "" values hs⟩
  · intro hn f hf
    have h1 := (mem_numericEntries values "origin" f).mp hf
    have h2 := mem_of_lookup horigin
    have h3 := value_unique hn h1 h2
    cases h3

set_option maxRecDepth 100000 in
/-- C9 at the record `{"origin":"impstats","cpu.usage":12}`. -/
theorem parseMsg_impstats_origin_witness :
    ∃ st', parseMsg
        (decoderOf "\x7b\"origin\":\"impstats\",\"cpu.usage\":12\x7d\n"
          [("origin", .string "impstats"), ("cpu.usage", .number ⟨12, 0⟩)])
        reliableWriter
        (asciiBytes "\x7b\"origin\":\"impstats\",\"cpu.usage\":12\x7d\n")
        initialWorld = .ok st' ∧
      st'.out = ["rsyslog.resource_usage.cpu_usage:12|g\n"] := by
  obtain ⟨st', h1, h2, _⟩ := ( parseMsg_impstats_origin
    (decoderOf "\x7b\"origin\":\"impstats\",\"cpu.usage\":12\x7d\n"
      [("origin", .string "impstats"), ("cpu.usage", .number ⟨12, 0⟩)])
    reliableWriter
    (asciiBytes "\x7b\"origin\":\"impstats\",\"cpu.usage\":12\x7d\n")
    initialWorld
    [("origin", .string "impstats"), ("cpu.usage", .number ⟨12, 0⟩)]
    (by decide) (if_pos (by decide)) rfl (by decide) (by decide)).1
  exact ⟨st', h1, h2.trans (by decide)⟩

/-- C10, the code at a failing input: for a decoded record with origin
`"impstats"` that has a numeric entry whose key cannot be sanitized (the empty
key, a key of punctuation only), `parseMsg` does not return: it ends in the
panic of an index out of range. -/
theorem parseMsg_panics_on_unsanitizable_key (unmarshal : Unmarshal) (w : Writer)
    (msg : List Nat) (st : World) (values : JsonMap) (k : String) (f : Float64)
    (hstart : ¬ bytesIndex msg CHAR_OPEN_BRACE < 0)
    (hdec : unmarshal (msg.drop (bytesIndex msg CHAR_OPEN_BRACE).toNat) = .ok values)
    (horigin : values.lookup "origin" = some (.string "impstats"))
    (hb : st.b.length = bufferSize)
    (hk : (k, JValue.number f) ∈ values) (hnone : sanitizedKey k = none) :
    parseMsg unmarshal w msg st = .error .indexOutOfRange := by
  rw [parseMsg_impstats unmarshal w msg st values hstart hdec horigin]
  exact findNums_panic w "resource_usage" "" values st hb
    ⟨(k, f), (mem_numericEntries values k f).mpr hk, hnone⟩

set_option maxRecDepth 100000 in
/-- C10 at the record `{"origin":"impstats","":5}`, whose numeric entry has the
empty key. -/
theorem parseMsg_panics_on_unsanitizable_key_witness :
    sanitizedKey "" = none ∧
    parseMsg
        (decoderOf "\x7b\"origin\":\"impstats\",\"\":5\x7d\n"
          [("origin", .string "impstats"), ("", .number ⟨5, 0⟩)])
        reliableWriter
        (asciiBytes "\x7b\"origin\":\"impstats\",\"\":5\x7d\n")
        initialWorld = .error .indexOutOfRange :=
  ⟨by decide, parseMsg_panics_on_unsanitizable_key
    (decoderOf "\x7b\"origin\":\"impstats\",\"\":5\x7d\n"
      [("origin", .string "impstats"), ("", .number ⟨5, 0⟩)])
    reliableWriter
    (asciiBytes "\x7b\"origin\":\"impstats\",\"\":5\x7d\n")
    initialWorld
    [("origin", .string "impstats"), ("", .number ⟨5, 0⟩)] "" ⟨5, 0⟩
    (by decide) (if_pos (by decide)) rfl (by decide)
    (List.mem_cons_of_mem _ (List.mem_cons_self _ _)) (by decide)⟩

/-! ## Lines that yield no metric -/

/-- C11. Missing or mistyped discriminator fields: for a decoded record that has
no `origin` field or whose `origin` is not a string, and for a record whose
`origin` is a string other than `"dynstats"` and `"impstats"` and whose `name` is
absent or not a string, `parseMsg` returns, writes no metric line and logs
exactly one diagnostic, which carries the line. -/
theorem parseMsg_missing_discriminator (unmarshal : Unmarshal) (w : Writer) (msg : List Nat)
    (st : World) (values : JsonMap)
    (hstart : ¬ bytesIndex msg CHAR_OPEN_BRACE < 0)
    (hdec : unmarshal (msg.drop (bytesIndex msg CHAR_OPEN_BRACE).toNat) = .ok values)
    (h : (∀ origin, values.lookup "origin" ≠ some (.string origin)) ∨
      (∃ origin, values.lookup "origin" = some (.string origin) ∧
        origin ≠ "dynstats" ∧ origin ≠ "impstats" ∧
        ∀ name, values.lookup "name" ≠ some (.string name))) :
    ∃ st' entry, parseMsg unmarshal w msg st = .ok st' ∧
      st'.out = st.out ∧ st'.log = st.log ++ [entry] ∧ st'.b = st.b ∧
      entry.operand = .message msg ∧
      (entry.text = "No origin key in the json blob" ∨
        entry.text = "No name key in the json blob") := by
  rcases h with h | ⟨origin, horigin, hd, hi, hname⟩
  · refine ⟨st.println "No origin key in the json blob" (.message msg),
      ⟨"No origin key in the json blob", .message msg⟩, ?_, rfl, rfl, rfl, rfl, Or.inl rfl⟩
    unfold parseMsg
    simp only [hstart, if_false, hdec]
    cases hl : values.lookup "origin" with
    | none => rfl
    | some v =>
      cases v with
      | string origin => exact absurd hl (h origin)
      | _ => rfl
  · refine ⟨st.println "No name key in the json blob" (.message msg),
      ⟨"No name key in the json blob", .message msg⟩, ?_, rfl, rfl, rfl, rfl, Or.inr rfl⟩
    unfold parseMsg
    simp only [hstart, if_false, hdec, horigin, hd, hi]

set_option maxRecDepth 100000 in
/-- C11 at the record `{"name":"x","count":1}`, which has no `origin`, and at the
record `{"origin":"imuxsock","count":1}`, which has no `name`. -/
theorem parseMsg_missing_discriminator_witness :
    parseMsg
        (decoderOf "\x7b\"name\":\"x\",\"count\":1\x7d\n"
          [("name", .string "x"), ("count", .number ⟨1, 0⟩)])
        reliableWriter (asciiBytes "\x7b\"name\":\"x\",\"count\":1\x7d\n") initialWorld =
      .ok { initialWorld with log := [⟨"No origin key in the json blob",
        .message (asciiBytes "\x7b\"name\":\"x\",\"count\":1\x7d\n")⟩] } ∧
    ∃ st' entry, parseMsg
        (decoderOf "\x7b\"origin\":\"imuxsock\",\"count\":1\x7d\n"
          [("origin", .string "imuxsock"), ("count", .number ⟨1, 0⟩)])
        reliableWriter (asciiBytes "\x7b\"origin\":\"imuxsock\",\"count\":1\x7d\n")
        initialWorld = .ok st' ∧ st'.out = [] ∧ st'.log = [entry] := by
  constructor
  · decide
  · obtain ⟨st', entry, h1, h2, h3, _⟩ := parseMsg_missing_discriminator
      (decoderOf "\x7b\"origin\":\"imuxsock\",\"count\":1\x7d\n"
        [("origin", .string "imuxsock"), ("count", .number ⟨1, 0⟩)])
      reliableWriter (asciiBytes "\x7b\"origin\":\"imuxsock\",\"count\":1\x7d\n")
      initialWorld [("origin", .string "imuxsock"), ("count", .number ⟨1, 0⟩)]
      (by decide) (if_pos (by decide))
      (Or.inr ⟨"imuxsock", rfl, by decide, by decide, fun name hn => by
        have h0 : List.lookup "name"
          [("origin", JValue.string "imuxsock"), ("count", JValue.number ⟨1, 0⟩)] = none := rfl
        rw [h0] at hn
        cases hn⟩)
    exact ⟨st', entry, h1, h2, h3⟩

/-- C12. No JSON present: for a raw line without the byte of the opening brace,
`parseMsg` returns with nothing written and nothing logged. -/
theorem parseMsg_no_brace (unmarshal : Unmarshal) (w : Writer) (msg : List Nat) (st : World)
    (h : CHAR_OPEN_BRACE ∉ msg) : parseMsg unmarshal w msg st = .ok st := by
  unfold parseMsg
  simp only [(bytesIndex_neg_iff msg CHAR_OPEN_BRACE).mpr h, if_true]

/-- C12 at the line `plain text, no braces`. -/
theorem parseMsg_no_brace_witness :
    CHAR_OPEN_BRACE ∉ asciiBytes "plain text, no braces\n" ∧
    parseMsg (decoderOf "" []) reliableWriter (asciiBytes "plain text, no braces\n")
      initialWorld = .ok initialWorld :=
  ⟨by decide, parseMsg_no_brace (decoderOf "" []) reliableWriter
    (asciiBytes "plain text, no braces\n") initialWorld (by decide)⟩

set_option maxRecDepth 100000 in
/-- C13, the claim at the line `garbage {not json`: the one diagnostic that
`parseMsg` logs for the decode failure is `Error while decoding json line`
followed by the error of `json.Unmarshal`; the line is not part of what is
printed. -/
theorem parseMsg_decode_failure_omits_line :
    ∃ st' entry,
      parseMsg
        (fun _ => .error "invalid character 'n' looking for beginning of object key string")
        reliableWriter (asciiBytes "garbage \x7bnot json\n") initialWorld = .ok st' ∧
      st'.log = [entry] ∧
      ¬ (asciiBytes "garbage \x7bnot json" <:+: entry.render) :=
  ⟨initialWorld.println "Error while decoding json line"
      (.error "invalid character 'n' looking for beginning of object key string"),
    ⟨"Error while decoding json line",
      .error "invalid character 'n' looking for beginning of object key string"⟩,
    by decide, rfl, by decide⟩

/-- C13 as amended. Malformed JSON: for a raw line that contains the opening
brace and whose part from the first opening brace on does not decode, `parseMsg`
returns, writes no metric line and logs exactly one diagnostic, the text
`Error while decoding json line` with the error of the decoder. -/
theorem parseMsg_decode_failure (unmarshal : Unmarshal) (w : Writer) (msg : List Nat)
    (st : World) (err : String)
    (hbrace : CHAR_OPEN_BRACE ∈ msg)
    (hdec : unmarshal (msg.drop (bytesIndex msg CHAR_OPEN_BRACE).toNat) = .error err) :
    ∃ st', parseMsg unmarshal w msg st = .ok st' ∧
      st'.out = st.out ∧ st'.b = st.b ∧
      st'.log = st.log ++ [⟨"Error while decoding json line", .error err⟩] := by
  have hstart : ¬ bytesIndex msg CHAR_OPEN_BRACE < 0 := fun h0 =>
    (bytesIndex_neg_iff msg CHAR_OPEN_BRACE).mp h0 hbrace
  refine ⟨st.println "Error while decoding json line" (.error err), ?_, rfl, rfl, rfl⟩
  unfold parseMsg
  simp only [hstart, if_false, hdec]

/-- C13 as amended, at the line `garbage {not json`. -/
theorem parseMsg_decode_failure_witness :
    ∃ st', parseMsg (decoderOf "" []) reliableWriter (asciiBytes "garbage \x7bnot json\n")
        initialWorld = .ok st' ∧
      st'.out = [] ∧ st'.b = initialBuffer ∧
      st'.log = [⟨"Error while decoding json line", .error "invalid character"⟩] :=
  parseMsg_decode_failure (decoderOf "" []) reliableWriter
    (asciiBytes "garbage \x7bnot json\n") initialWorld "invalid character"
    (by decide) (if_neg (by decide))

/-! ## The sanitizer, continued -/

set_option maxRecDepth 1000000 in
/-- C14, the claim at the string of 255 letters `a`: `sanitizeKey` returns a key
of 255 characters. -/
theorem sanitizeKey_length_255 :
    ∃ t b', sanitizeKey initialBuffer (String.mk (List.replicate 255 'a')) = .ok (t, b') ∧
      ¬ (t.length ≤ 254) :=
  ⟨String.mk (List.replicate 255 'a'), List.replicate 255 97, by decide, by decide⟩

/-- C14 as amended. Length bound: when `sanitizeKey` returns on the buffer of 255
bytes, the key has at most 255 characters. -/
theorem sanitizeKey_length_le (b : List Nat) (s t : String) (b' : List Nat)
    (hb : b.length = bufferSize) (h : sanitizeKey b s = .ok (t, b')) :
    t.length ≤ 255 := by
  obtain ⟨ks, ht, _, hp, hlen⟩ := sanitizeKey_ok_bytes h
  have h1 : t.length = ks.length := by
    rw [ht]
    show (ks.map Char.ofNat).length = ks.length
    exact List.length_map _ _
  have h2 := hp.length_le
  rw [h1]
  simp only [bufferSize] at hb
  omega

set_option maxRecDepth 100000 in
/-- C14 as amended, at the input `"Input Rate"`. -/
theorem sanitizeKey_length_le_witness :
    sanitizeKey initialBuffer "Input Rate" =
        .ok ("input_rate", asciiBytes "input_rate" ++ List.replicate 245 0) ∧
      "input_rate".length ≤ 255 :=
  ⟨by decide, sanitizeKey_length_le initialBuffer "Input Rate" "input_rate"
    (asciiBytes "input_rate" ++ List.replicate 245 0) (by decide) (by decide)⟩

set_option maxRecDepth 100000 in
/-- C15, the claim at the input `"_a"`: `sanitizeKey` returns `"a"`, which does
not begin with an underscore. -/
theorem sanitizeKey_drops_leading_underscore :
    (sanitizeKey initialBuffer "_a").map Prod.fst = .ok "a" ∧
      "a".data.head? ≠ some '_' ∧ "a" ≠ "_a" := by decide

/-- C15 as amended. A leading run of disallowed characters is removed: on an
input that begins with such a run `sanitizeKey` does what it does on the rest of
the input, and a key that it returns does not begin with an underscore. -/
theorem sanitizeKey_leading_run_removed (b : List Nat) (pre rest : String)
    (hpre : ∀ c ∈ pre.data, notAlphaNumeric (c.toNat % 256) = true) :
    sanitizeKey b (pre ++ rest) = sanitizeKey b rest ∧
      ∀ t b', sanitizeKey b rest = .ok (t, b') → t.data.head? ≠ some '_' := by
  constructor
  · apply sanitizeKey_congr
    rw [String.data_append]
    exact scanBytes_skip_leading pre.data rest.data hpre
  · intro t b' h
    obtain ⟨ks, ht, hk, _, _⟩ := sanitizeKey_ok_bytes h
    rw [ht]
    exact cleanKey_head hk

set_option maxRecDepth 100000 in
/-- C15 as amended, at the input `"_-_a_b"`. -/
theorem sanitizeKey_leading_run_removed_witness :
    sanitizeKey initialBuffer ("_-_" ++ "a_b") = sanitizeKey initialBuffer "a_b" ∧
      (sanitizeKey initialBuffer "a_b").map Prod.fst = .ok "a_b" := by
  refine ⟨(sanitizeKey_leading_run_removed initialBuffer "_-_" "a_b" (by decide)).1, ?_⟩
  decide

/-! ## The value written -/

/-- C16. Integer truncation: for a numeric value `v` within the range of `int`,
`int(v)` is `v` rounded toward zero, and the value in the line that `findNums`
writes for the entry is the base-10 rendering of that integer. -/
theorem findNums_value_truncated (w : Writer) (pfx tag k : String) (v : Float64)
    (kvs : JsonMap) (st : World) (key : String) (b1 : List Nat)
    (hk : sanitizeKey st.b k = .ok (key, b1))
    (hrange : -2 ^ 63 ≤ v.toRat ∧ v.toRat < 2 ^ 63) :
    floatToInt v = roundTowardZero v.toRat ∧
    findNums w pfx tag ((k, .number v) :: kvs) st =
      findNums w pfx tag kvs
        (writeLine w
          (if tag = "" then
            "rsyslog." ++ pfx ++ "." ++ key ++ ":" ++ toString (roundTowardZero v.toRat) ++ "|g\n"
          else
            "rsyslog." ++ pfx ++ ",tag1=" ++ tag ++ ",tag2=" ++ key ++ ":" ++
              toString (roundTowardZero v.toRat) ++ "|g\n")
          { st with b := b1 }) := by
  have h1 : floatToInt v = roundTowardZero v.toRat := by
    unfold floatToInt
    rw [Float64.trunc_eq_round, if_pos (roundTowardZero_range v.toRat hrange)]
  refine ⟨h1, ?_⟩
  rw [findNums_number w pfx tag k v kvs st key b1 hk, h1]
  rfl

set_option maxRecDepth 100000 in
/-- C16 at the values 3.7, -3.7 and 12: the values written are 3, -3 and 12. -/
theorem findNums_value_truncated_witness :
    roundTowardZero (Float64.toRat ⟨4165829655317709, -50⟩) = 3 ∧
    floatToInt ⟨-4165829655317709, -50⟩ = -3 ∧ floatToInt ⟨12, 0⟩ = 12 ∧
    (findNums reliableWriter "dynstats" "" [("Foo Bar", .number ⟨-4165829655317709, -50⟩)]
      initialWorld).map World.out = .ok ["rsyslog.dynstats.foo_bar:-3|g\n"] := by
  have h := (findNums_value_truncated reliableWriter "dynstats" "" "Foo Bar"
    ⟨4165829655317709, -50⟩ [] initialWorld "foo_bar"
    (asciiBytes "foo_bar" ++ List.replicate 248 0) (by decide)
    (by norm_num [Float64.toRat])).1
  exact ⟨h.symm.trans (by decide), by decide, by decide, by decide⟩

/-! ## Characters outside ASCII, and the shared buffer -/

set_option maxRecDepth 100000 in
/-- C17, the claim at the input `"xŁy"`: the character U+0141 is not ASCII
and the first byte of its encoding, 197, is not alphanumeric, yet it contributes
the letter `a`: `sanitizeKey` returns `"xay"`, not `"x_y"`. -/
theorem sanitizeKey_non_ascii_contributes_letter :
    ¬ ('Ł'.toNat < 128) ∧ (utf8Encode 'Ł').head? = some 197 ∧
      notAlphaNumeric 197 = true ∧
      (sanitizeKey initialBuffer "xŁy").map Prod.fst = .ok "xay" ∧ "xay" ≠ "x_y" := by
  decide

/-- C17 as amended. A character is classified by its code point modulo 256, the
conversion `byte(r)`: two strings whose characters agree modulo 256 have the
same outcome, so a character outside ASCII is treated as the byte of that value,
disallowed when the byte is no ASCII letter or digit and copied as that letter or
digit otherwise. -/
theorem sanitizeKey_low_byte (b : List Nat) (s s' : String)
    (h : s.data.map (fun r => r.toNat % 256) = s'.data.map (fun r => r.toNat % 256)) :
    sanitizeKey b s = sanitizeKey b s' :=
  sanitizeKey_congr b s s' (scanBytes_low_byte s.data s'.data CHAR_UNDERSCORE h)

set_option maxRecDepth 100000 in
/-- C17 as amended, at the inputs `"xŁy"`, treated as `"xAy"`, and
`"xéy"`, whose middle character has the value 233 and is disallowed. -/
theorem sanitizeKey_low_byte_witness :
    sanitizeKey initialBuffer "xŁy" = sanitizeKey initialBuffer "xAy" ∧
      (sanitizeKey initialBuffer "xAy").map Prod.fst = .ok "xay" ∧
      (sanitizeKey initialBuffer "xéy").map Prod.fst = .ok "x_y" :=
  ⟨sanitizeKey_low_byte initialBuffer "xŁy" "xAy" (by decide), by decide, by decide⟩

/-- C18. Reuse of the buffer cannot be observed: on buffers of 255 bytes the key
that `sanitizeKey` returns, or its panic, is the same whatever the buffers
contain; the same holds for a call that follows an earlier call; in `parseMsg`
the tag computed from `name` is the tag of the lines written although the call
for `origin` has used the buffer since; and the lines written and the
diagnostics logged by `parseMsg` are the same whatever the buffer contains. -/
theorem buffer_reuse_unobservable (b1 b2 : List Nat)
    (h1 : b1.length = bufferSize) (h2 : b2.length = bufferSize) :
    (∀ s, (sanitizeKey b1 s).map Prod.fst = (sanitizeKey b2 s).map Prod.fst) ∧
    (∀ s t b1' s2, sanitizeKey b1 s = .ok (t, b1') →
      (sanitizeKey b1' s2).map Prod.fst = (sanitizeKey b2 s2).map Prod.fst) ∧
    (∀ name origin tag pfx b1' b1'', sanitizeKey b1 name = .ok (tag, b1') →
      sanitizeKey b1' origin = .ok (pfx, b1'') →
      sanitizedKey name = some tag ∧ sanitizedKey origin = some pfx) ∧
    (∀ (unmarshal : Unmarshal) (w : Writer) (msg : List Nat) (out : List String)
      (log : List LogEntry),
      (parseMsg unmarshal w msg { b := b1, out := out, log := log }).map World.observable =
        (parseMsg unmarshal w msg { b := b2, out := out, log := log }).map World.observable) := by
  refine ⟨?_, ?_, ?_, ?_⟩
  · intro s
    exact sanitizeKey_fst_eq b1 b2 s (h1.trans h2.symm)
  · intro s t b1' s2 hs
    exact sanitizeKey_fst_eq b1' b2 s2 (((sanitizeKey_length hs).trans h1).trans h2.symm)
  · intro name origin tag pfx b1' b1'' hn ho
    exact ⟨sanitizedKey_of_ok h1 hn, sanitizedKey_of_ok ((sanitizeKey_length hn).trans h1) ho⟩
  · intro unmarshal w msg out log
    have hsame : SameButBuffer { b := b1, out := out, log := log }
        { b := b2, out := out, log := log } := ⟨rfl, rfl, h1, h2⟩
    exact SameOutcome.observable (parseMsg_sim unmarshal w msg _ _ hsame)

set_option maxRecDepth 100000 in
/-- C18 at the fresh buffer and the buffer that the call for `"Input Rate"` has
left, for the key `"count"` and for the record
`{"origin":"imuxsock","name":"Input Rate","count":5}`. -/
theorem buffer_reuse_unobservable_witness :
    (sanitizeKey initialBuffer "count").map Prod.fst =
        (sanitizeKey (asciiBytes "input_rate" ++ List.replicate 245 0) "count").map Prod.fst ∧
    (parseMsg
        (decoderOf "\x7b\"origin\":\"imuxsock\",\"name\":\"Input Rate\",\"count\":5\x7d\n"
          [("origin", .string "imuxsock"), ("name", .string "Input Rate"),
            ("count", .number ⟨5, 0⟩)])
        reliableWriter
        (asciiBytes "\x7b\"origin\":\"imuxsock\",\"name\":\"Input Rate\",\"count\":5\x7d\n")
        { b := asciiBytes "input_rate" ++ List.replicate 245 0, out := [], log := [] }).map
        World.observable =
      .ok (["rsyslog.imuxsock,tag1=input_rate,tag2=count:5|g\n"], []) := by
  have h := buffer_reuse_unobservable initialBuffer
    (asciiBytes "input_rate" ++ List.replicate 245 0) (by decide) (by decide)
  refine ⟨h.1 "count", ?_⟩
  rw [← h.2.2.2]
  decide

/-! ## When the sanitizer fails, and what it returns -/

/-- C19. With `n` the number of bytes the scan emits, counted as one per
alphanumeric character and one per maximal run of disallowed characters that
follows an alphanumeric character, `sanitizeKey` on the buffer of 255 bytes ends
in the panic of an index out of range exactly when `n = 0` or `n > 255`, and
returns a result in every other case. -/
theorem sanitizeKey_fails_iff (b : List Nat) (s : String) (hb : b.length = bufferSize) :
    (sanitizeKey b s = .error .indexOutOfRange ↔ emittedCount s = 0 ∨ 255 < emittedCount s) ∧
    (¬ (emittedCount s = 0 ∨ 255 < emittedCount s) → ∃ t b', sanitizeKey b s = .ok (t, b')) := by
  have hn := scanBytes_length_eq_emittedCount s
  have hcond : (scanBytes CHAR_UNDERSCORE s.data = [] ∨
      b.length < (scanBytes CHAR_UNDERSCORE s.data).length) ↔
      (emittedCount s = 0 ∨ 255 < emittedCount s) := by
    rw [← hn, hb, List.length_eq_zero]
    rfl
  rw [sanitizeKey_eq]
  constructor
  · constructor
    · intro h
      by_contra hc
      rw [if_neg (fun h0 => hc (hcond.mp h0))] at h
      cases h
    · intro h
      rw [if_pos (hcond.mpr h)]
  · intro h
    rw [if_neg (fun h0 => h (hcond.mp h0))]
    exact ⟨_, _, rfl⟩

set_option maxRecDepth 1000000 in
/-- C19 at the empty string, at `"..."` and `"_"`, at the strings of 255 and of
256 letters, and at `"Input Rate"`. -/
theorem sanitizeKey_fails_iff_witness :
    (emittedCount "" = 0 ∧ sanitizeKey initialBuffer "" = .error .indexOutOfRange) ∧
    (emittedCount "..." = 0 ∧ sanitizeKey initialBuffer "..." = .error .indexOutOfRange) ∧
    (emittedCount "_" = 0 ∧ sanitizeKey initialBuffer "_" = .error .indexOutOfRange) ∧
    (emittedCount (String.mk (List.replicate 256 'a')) = 256 ∧
      sanitizeKey initialBuffer (String.mk (List.replicate 256 'a')) =
        .error .indexOutOfRange) ∧
    (emittedCount (String.mk (List.replicate 255 'a')) = 255 ∧
      ∃ t b', sanitizeKey initialBuffer (String.mk (List.replicate 255 'a')) = .ok (t, b')) ∧
    (emittedCount "Input Rate" = 10 ∧
      ∃ t b', sanitizeKey initialBuffer "Input Rate" = .ok (t, b')) :=
  ⟨⟨by decide, ((sanitizeKey_fails_iff initialBuffer "" (by decide)).1).mpr (Or.inl (by decide))⟩,
    ⟨by decide,
      ((sanitizeKey_fails_iff initialBuffer "..." (by decide)).1).mpr (Or.inl (by decide))⟩,
    ⟨by decide,
      ((sanitizeKey_fails_iff initialBuffer "_" (by decide)).1).mpr (Or.inl (by decide))⟩,
    ⟨by decide,
      ((sanitizeKey_fails_iff initialBuffer (String.mk (List.replicate 256 'a'))
        (by decide)).1).mpr (Or.inr (by decide))⟩,
    ⟨by decide,
      (sanitizeKey_fails_iff initialBuffer (String.mk (List.replicate 255 'a'))
        (by decide)).2 (by decide)⟩,
    ⟨by decide, (sanitizeKey_fails_iff initialBuffer "Input Rate" (by decide)).2 (by decide)⟩⟩

/-- C20. Split and join: when `sanitizeKey` returns, the key is the maximal runs
of alphanumeric characters of the string (each character classified by its code
point modulo 256), in order and in lower case, joined by single underscores;
the runs of disallowed characters at the start and at the end contribute
nothing and every run between two alphanumeric runs contributes one
underscore. -/
theorem sanitizeKey_eq_splitJoin (b : List Nat) (s t : String) (b' : List Nat)
    (h : sanitizeKey b s = .ok (t, b')) : t = splitJoin s := by
  obtain ⟨_, _, ht, _⟩ := (sanitizeKey_ok_iff b s t b').mp h
  rw [ht, (scanBytes_eq_joinPieces s.data).1,
    dropTrailing_joinPieces _ (splitOnP_alphaNumeric _)]
  rfl

set_option maxRecDepth 100000 in
/-- C20 at the input `"__Foo..Bar--Ł9!"`: the runs are `Foo`, `Bar` and the
run of the characters with the values of `A` and `9`. -/
theorem sanitizeKey_eq_splitJoin_witness :
    alphaNumericRuns "__Foo..Bar--Ł9!" = [[70, 111, 111], [66, 97, 114], [65, 57]] ∧
    splitJoin "__Foo..Bar--Ł9!" = "foo_bar_a9" ∧
    sanitizeKey initialBuffer "__Foo..Bar--Ł9!" =
      .ok ("foo_bar_a9", asciiBytes "foo_bar_a9_" ++ List.replicate 244 0) ∧
    "foo_bar_a9" = splitJoin "__Foo..Bar--Ł9!" :=
  ⟨by decide, by decide, by decide,
    sanitizeKey_eq_splitJoin initialBuffer "__Foo..Bar--Ł9!" "foo_bar_a9"
      (asciiBytes "foo_bar_a9_" ++ List.replicate 244 0) (by decide)⟩

end RsyslogPstats
